import Mathlib

/-!
Verification of the scipion-em-motioncorr plugin logic.

Shallow embedding of the repository's own Python code:
`motioncorr/convert.py` (shift-log parsing, optics-group STAR round trip),
`motioncorr/protocols/protocol_base.py` (argument building, validation),
`motioncorr/protocols/protocol_motioncorr.py` (frame motion, input format),
`motioncorr/protocols/protocol_motioncorr_tasks.py` (batching, pipeline,
output moving).

Python strings are lists of characters (`PyStr`), so that every string
operation is structurally recursive and evaluable; files are lists of
lines; Python floats are either abstract parse results or `Rat` values
(exact arithmetic stands in for IEEE arithmetic); fallible code returns
`Option`.
-/

namespace Motioncorr

/-- A Python string, as its list of characters. -/
abbrev PyStr := List Char

/-- Drop leading whitespace. -/
def pyStripLeft : PyStr → PyStr
  | [] => []
  | c :: rest => if c.isWhitespace then pyStripLeft rest else c :: rest

/-- Python `str.strip()`: drop whitespace at both ends. -/
def pyStrip (s : PyStr) : PyStr :=
  (pyStripLeft (pyStripLeft s).reverse).reverse

/-- Helper of `pySplitWs`, carrying the current (reversed) token. -/
def pySplitWsAux (cur : PyStr) : PyStr → List PyStr
  | [] => if cur.isEmpty then [] else [cur.reverse]
  | c :: rest =>
    if c.isWhitespace then
      if cur.isEmpty then pySplitWsAux [] rest
      else cur.reverse :: pySplitWsAux [] rest
    else pySplitWsAux (c :: cur) rest

/-- Python `str.split()` with no separator: split on runs of whitespace,
dropping empty tokens. -/
def pySplitWs (s : PyStr) : List PyStr := pySplitWsAux [] s

/-- The condition of `parseMovieAlignment2` on one line of the log file:
after `strip()` the line contains no `'#'` and is non-empty
(`'#' not in l and len(l) > 0`). -/
def shiftLineQualifies (line : PyStr) : Bool :=
  let l := pyStrip line
  !(l.contains '#') && !l.isEmpty

/-- Loop of `parseMovieAlignment2` (convert.py): `first` holds the frame
number read with `int(parts[0])` from the first qualifying line; every
qualifying line contributes `float(parts[1])` to `xshifts` and
`float(parts[2])` to `yshifts`.  `pi` embeds Python `int(...)`, `pf`
embeds `float(...)`; an out-of-range index (Python `IndexError`) or a
failed parse makes the whole call fail. -/
def parseMovieAlignment2Go {α : Type} (pi : PyStr → Option Int)
    (pf : PyStr → Option α) (first : Option Int) :
    List PyStr → Option (List α × List α)
  | [] => some ([], [])
  | line :: rest =>
    let l := pyStrip line
    if !(l.contains '#') && !l.isEmpty then
      let parts := pySplitWs l
      (match first with
        | some v => some v
        | none => parts.get? 0 >>= pi).bind fun v =>
      (parts.get? 1 >>= pf).bind fun x =>
      (parts.get? 2 >>= pf).bind fun y =>
      (parseMovieAlignment2Go pi pf (some v) rest).bind fun p =>
      some (x :: p.1, y :: p.2)
    else
      parseMovieAlignment2Go pi pf first rest

/-- `parseMovieAlignment2` of convert.py on a log file given as its list
of lines. -/
def parseMovieAlignment2 {α : Type} (pi : PyStr → Option Int)
    (pf : PyStr → Option α) (lines : List PyStr) :
    Option (List α × List α) :=
  parseMovieAlignment2Go pi pf none lines

/-- Run a fallible function over a list, failing when any element fails
(the shape of a sequence of `float(...)` calls in Python: the first
exception aborts the whole parse). -/
def optionMap {α β : Type} (f : α → Option β) : List α → Option (List β)
  | [] => some []
  | s :: rest =>
    (f s).bind fun x =>
    (optionMap f rest).bind fun xs =>
    some (x :: xs)

/-- The x-entry a qualifying line contributes: its second
whitespace-separated field, parsed. -/
def lineXShift {α : Type} (pf : PyStr → Option α) (l : PyStr) : Option α :=
  (pySplitWs (pyStrip l)).get? 1 >>= pf

/-- The y-entry a qualifying line contributes: its third
whitespace-separated field, parsed. -/
def lineYShift {α : Type} (pf : PyStr → Option α) (l : PyStr) : Option α :=
  (pySplitWs (pyStrip l)).get? 2 >>= pf

theorem parseMovieAlignment2Go_spec {α : Type} (pi : PyStr → Option Int)
    (pf : PyStr → Option α) :
    ∀ (lines : List PyStr) (first : Option Int) (xs ys : List α),
      parseMovieAlignment2Go pi pf first lines = some (xs, ys) →
      xs.length = ys.length ∧
      optionMap (lineXShift pf) (lines.filter shiftLineQualifies) = some xs ∧
      optionMap (lineYShift pf) (lines.filter shiftLineQualifies) = some ys := by
  intro lines
  induction lines with
  | nil =>
    intro first xs ys h
    simp only [parseMovieAlignment2Go, Option.some.injEq, Prod.mk.injEq] at h
    obtain ⟨hx, hy⟩ := h
    subst hx; subst hy
    simp [optionMap]
  | cons line rest ih =>
    intro first xs ys h
    by_cases hq : shiftLineQualifies line
    · have hq' : (!((pyStrip line).contains '#') && !(pyStrip line).isEmpty) = true := by
        simpa [shiftLineQualifies] using hq
      rw [parseMovieAlignment2Go] at h
      simp only [hq', if_true] at h
      cases hv : (match first with
                  | some v => some v
                  | none => (pySplitWs (pyStrip line)).get? 0 >>= pi) with
      | none => rw [hv, Option.none_bind] at h; exact absurd h (by simp)
      | some v =>
        rw [hv, Option.some_bind] at h
        cases hx1 : (pySplitWs (pyStrip line)).get? 1 >>= pf with
        | none => rw [hx1, Option.none_bind] at h; exact absurd h (by simp)
        | some x =>
          rw [hx1, Option.some_bind] at h
          cases hy1 : (pySplitWs (pyStrip line)).get? 2 >>= pf with
          | none => rw [hy1, Option.none_bind] at h; exact absurd h (by simp)
          | some y =>
            rw [hy1, Option.some_bind] at h
            cases hrec : parseMovieAlignment2Go pi pf (some v) rest with
            | none => rw [hrec, Option.none_bind] at h; exact absurd h (by simp)
            | some p =>
              obtain ⟨xs', ys'⟩ := p
              rw [hrec, Option.some_bind] at h
              simp only [Option.some.injEq, Prod.mk.injEq] at h
              obtain ⟨hxs, hys⟩ := h
              subst hxs; subst hys
              obtain ⟨hlen, hmx, hmy⟩ := ih (some v) xs' ys' hrec
              refine ⟨by simp [hlen], ?_, ?_⟩
              · simp only [List.filter_cons, hq, if_true, optionMap, lineXShift]
                rw [hx1, Option.some_bind, hmx, Option.some_bind]
              · simp only [List.filter_cons, hq, if_true, optionMap, lineYShift]
                rw [hy1, Option.some_bind, hmy, Option.some_bind]
    · have hq' : (!((pyStrip line).contains '#') && !(pyStrip line).isEmpty) = false := by
        simpa [shiftLineQualifies] using hq
      rw [parseMovieAlignment2Go] at h
      simp only [hq', Bool.false_eq_true, if_false] at h
      obtain ⟨hlen, hmx, hmy⟩ := ih first xs ys h
      refine ⟨hlen, ?_, ?_⟩
      · simpa [List.filter_cons, hq] using hmx
      · simpa [List.filter_cons, hq] using hmy

/-- C1: whenever `parseMovieAlignment2` returns, it returns one x-entry
and one y-entry per line that is non-empty after stripping and free of
`'#'`; the entries are the line's second and third whitespace-separated
fields parsed as floats, in file order, and the two lists have equal
length. -/
theorem C1_parseMovieAlignment2_shifts {α : Type} (pi : PyStr → Option Int)
    (pf : PyStr → Option α) (lines : List PyStr) (xs ys : List α)
    (h : parseMovieAlignment2 pi pf lines = some (xs, ys)) :
    xs.length = ys.length ∧
    optionMap (lineXShift pf) (lines.filter shiftLineQualifies) = some xs ∧
    optionMap (lineYShift pf) (lines.filter shiftLineQualifies) = some ys :=
  parseMovieAlignment2Go_spec pi pf lines none xs ys h

/-- Concrete run of C1 on a four-line log with a header comment and a
blank line. -/
theorem C1_parseMovieAlignment2_shifts_witness :
    (["0.5".toList, "1.5".toList]).length =
      (["0.7".toList, "2.5".toList]).length ∧
    optionMap (lineXShift some)
      ((["# comment".toList, "1 0.5 0.7".toList, "  ".toList,
         "2 1.5 2.5".toList]).filter shiftLineQualifies) =
      some ["0.5".toList, "1.5".toList] ∧
    optionMap (lineYShift some)
      ((["# comment".toList, "1 0.5 0.7".toList, "  ".toList,
         "2 1.5 2.5".toList]).filter shiftLineQualifies) =
      some ["0.7".toList, "2.5".toList] :=
  C1_parseMovieAlignment2_shifts (fun _ => some 0) some
    ["# comment".toList, "1 0.5 0.7".toList, "  ".toList, "2 1.5 2.5".toList]
    ["0.5".toList, "1.5".toList] ["0.7".toList, "2.5".toList] (by decide)

/-! ## String helpers shared by the pipeline embedding -/

/-- Does `pat` occur at the start of the second argument? -/
def pyStartsWith : PyStr → PyStr → Bool
  | [], _ => true
  | _ :: _, [] => false
  | p :: ps, c :: cs => p == c && pyStartsWith ps cs

/-- Remove `pat` from the front of a string, or fail. -/
def stripPre : PyStr → PyStr → Option PyStr
  | [], s => some s
  | _ :: _, [] => none
  | p :: ps, c :: cs => if p = c then stripPre ps cs else none

theorem stripPre_length :
    ∀ (pat s r : PyStr), stripPre pat s = some r →
      s.length = pat.length + r.length := by
  intro pat
  induction pat with
  | nil =>
    intro s r h
    simp only [stripPre, Option.some.injEq] at h
    subst h; simp
  | cons p ps ih =>
    intro s r h
    cases s with
    | nil => simp [stripPre] at h
    | cons c cs =>
      simp only [stripPre] at h
      split at h
      · have := ih cs r h
        simp only [List.length_cons]
        omega
      · exact absurd h (by simp)

/-- Helper of `pyReplace` for a non-empty pattern `q :: qs`. -/
def pyReplaceNE (q : Char) (qs repl : PyStr) : PyStr → PyStr
  | [] => []
  | c :: rest =>
    match hm : stripPre (q :: qs) (c :: rest) with
    | some remainder => repl ++ pyReplaceNE q qs repl remainder
    | none => c :: pyReplaceNE q qs repl rest
termination_by s => s.length
decreasing_by
  · have h := stripPre_length (q :: qs) (c :: rest) remainder hm
    simp only [List.length_cons] at h ⊢
    omega
  · simp [List.length_cons]

/-- Python `str.replace(pat, repl)` (left-to-right, non-overlapping).
The callers in this repository never pass an empty pattern; for an empty
pattern we return the string unchanged. -/
def pyReplace (pat repl s : PyStr) : PyStr :=
  match pat with
  | [] => s
  | q :: qs => pyReplaceNE q qs repl s

/-- Python `str(n)` for a natural number. -/
def natToChars (n : Nat) : PyStr := Nat.toDigits 10 n

/-- Python `str(i)` for an integer. -/
def intToChars (i : Int) : PyStr :=
  if i < 0 then '-' :: natToChars i.natAbs else natToChars i.natAbs

/-! ## `protocol_motioncorr_tasks.py`: the streaming batch pipeline -/

/-- A batch handed to a GPU worker: the object ids of its movies and its
1-based index. -/
structure McBatch where
  ids : List Nat
  index : Nat
deriving DecidableEq

/-- Embedding of the `_processBatch` closure returned by
`_getMcProcessor`: it invokes the external binary via `self.runJob`
exactly once (attempt number `0` of the `runJobSucceeds` oracle); on
success it adds the batch size to the `processed` counter and returns
the batch; on any exception it logs the error and returns no batch.
Result: (number of binary invocations, new `processed` counter, the
value passed on to the output queue). -/
def processBatch (runJobSucceeds : Nat → Bool) (processed : Nat)
    (batch : McBatch) : Nat × Nat × Option McBatch :=
  if runJobSucceeds 0 then
    (1, processed + batch.ids.length, some batch)
  else
    (1, processed, none)

/-- C2 counterexample: when the single invocation of the binary fails,
the batch is abandoned (no batch is returned) after exactly one attempt,
so it is not true that a batch is given up only after more than one
attempt. -/
theorem C2_single_failure_abandons :
    (processBatch (fun _ => false) 0 ⟨[7], 1⟩).2.2 = none ∧
    (processBatch (fun _ => false) 0 ⟨[7], 1⟩).1 = 1 ∧
    ¬ 1 < (processBatch (fun _ => false) 0 ⟨[7], 1⟩).1 := by
  refine ⟨rfl, rfl, by decide⟩

/-- C2 (amended): the batch processor invokes the external binary exactly
once per batch — there is no retry. The batch is abandoned precisely when
that single attempt fails, and passed on precisely when it succeeds. -/
theorem C2_no_retry (runJobSucceeds : Nat → Bool) (processed : Nat)
    (batch : McBatch) :
    (processBatch runJobSucceeds processed batch).1 = 1 ∧
    ((processBatch runJobSucceeds processed batch).2.2 = none ↔
      runJobSucceeds 0 = false) ∧
    ((processBatch runJobSucceeds processed batch).2.2 = some batch ↔
      runJobSucceeds 0 = true) := by
  unfold processBatch
  by_cases h : runJobSucceeds 0 <;> simp [h]

/-- The queues of the `Pipeline` built in `_processAllMoviesStep`:
the batch generator's output queue (input of every GPU worker) and the
first GPU worker's output queue (input of the output mover, and the
output queue of every other GPU worker). -/
inductive QueueId
  | generatorOut
  | firstProcOut
deriving DecidableEq

/-- One GPU worker of the pipeline. -/
structure McWorker where
  gpu : Nat
  cmd : PyStr
  input : QueueId
  output : QueueId
deriving DecidableEq

/-- The command a worker runs: `self.command.replace('-Gpu #', f'-Gpu {gpu}')`. -/
def gpuCommand (command : PyStr) (gpu : Nat) : PyStr :=
  pyReplace ("-Gpu #".toList) ("-Gpu ".toList ++ natToChars gpu) command

/-- Embedding of the worker construction of `_processAllMoviesStep`:
`mc1 = mc.addProcessor(g.outputQueue, self._getMcProcessor(gpus[0]))` and
one further `mc.addProcessor(g.outputQueue, self._getMcProcessor(gpu),
outputQueue=mc1.outputQueue)` per remaining GPU id.  `gpus[0]` on an
empty list raises `IndexError`, so the construction fails there. -/
def buildMcWorkers (gpus : List Nat) (command : PyStr) :
    Option (List McWorker) :=
  match gpus with
  | [] => none
  | g :: gs =>
    some (⟨g, gpuCommand command g, .generatorOut, .firstProcOut⟩ ::
      gs.map fun g2 => ⟨g2, gpuCommand command g2, .generatorOut, .firstProcOut⟩)

/-- Indices of the batches that worker `w` dequeues, in a run where the
`i`-th generated batch is handed to worker `pick i` (Python
`queue.Queue.get` delivers each queued item to exactly one caller). -/
def workerBatchIdxs (nBatches : Nat) (pick : Nat → Nat) (w : Nat) :
    List Nat :=
  (List.range nBatches).filter (fun i => pick i == w)

/-- In any run of a single-consumption queue with `W` consumers, each
queued batch index `i < nBatches` appears in the dequeue list of exactly
one worker. -/
theorem queue_dispatch_unique (W nBatches : Nat) (pick : Nat → Nat)
    (hpick : ∀ i, pick i < W) (i : Nat) (hi : i < nBatches) :
    ((List.range W).filter
      (fun w => decide (i ∈ workerBatchIdxs nBatches pick w))).length = 1 := by
  have hcongr : (List.range W).filter
      (fun w => decide (i ∈ workerBatchIdxs nBatches pick w)) =
      (List.range W).filter (fun w => w == pick i) := by
    refine List.filter_congr ?_
    intro w _
    have hmem : (i ∈ workerBatchIdxs nBatches pick w) ↔ pick i = w := by
      simp [workerBatchIdxs, List.mem_filter, List.mem_range, hi]
    by_cases h : pick i = w
    · simp [hmem, h]
    · have h' : ¬ w = pick i := fun hh => h hh.symm
      simp [hmem, h, h']
  rw [hcongr, ← List.countP_eq_length_filter, ← List.count]
  exact List.count_eq_one_of_mem (List.nodup_range W)
    (List.mem_range.mpr (hpick i))

/-- C3: for a non-empty GPU list the pipeline has exactly one
batch-processor worker per GPU id, all consuming the single generator
output queue; worker `i` runs the prepared command with `-Gpu #` replaced
by its own GPU id; and in any run of the shared queue each generated
batch is dequeued by exactly one worker. -/
theorem C3_one_worker_per_gpu (gpus : List Nat) (command : PyStr)
    (hne : gpus ≠ []) :
    ∃ ws, buildMcWorkers gpus command = some ws ∧
      ws.length = gpus.length ∧
      ws.map McWorker.gpu = gpus ∧
      (∀ w ∈ ws, w.input = QueueId.generatorOut) ∧
      ws.map McWorker.cmd = gpus.map (gpuCommand command) ∧
      (∀ (nBatches : Nat) (pick : Nat → Nat), (∀ i, pick i < ws.length) →
        ∀ i, i < nBatches →
          ((List.range ws.length).filter
            (fun w => decide (i ∈ workerBatchIdxs nBatches pick w))).length
            = 1) := by
  match gpus with
  | [] => exact absurd rfl hne
  | g :: gs =>
    refine ⟨_, rfl, ?_, ?_, ?_, ?_, ?_⟩
    · simp
    · rw [List.map_cons, List.map_map]
      have h1 : McWorker.gpu ∘ (fun g2 =>
          (⟨g2, gpuCommand command g2, QueueId.generatorOut,
            QueueId.firstProcOut⟩ : McWorker)) = id := rfl
      rw [h1, List.map_id]
    · intro w hw
      rcases List.mem_cons.mp hw with h | h
      · rw [h]
      · obtain ⟨g2, _, h2⟩ := List.mem_map.mp h
        rw [← h2]
    · rw [List.map_cons, List.map_map, List.map_cons]
      have h1 : McWorker.cmd ∘ (fun g2 =>
          (⟨g2, gpuCommand command g2, QueueId.generatorOut,
            QueueId.firstProcOut⟩ : McWorker)) = gpuCommand command := rfl
      rw [h1]
    · intro nBatches pick hpick i hi
      exact queue_dispatch_unique _ nBatches pick hpick i hi

/-- Concrete instantiation of C3 for GPU list `[0, 1]`. -/
theorem C3_one_worker_per_gpu_witness :
    ∃ ws, buildMcWorkers [0, 1] ("x -Gpu # y".toList) = some ws ∧
      ws.length = [0, 1].length ∧
      ws.map McWorker.gpu = [0, 1] ∧
      (∀ w ∈ ws, w.input = QueueId.generatorOut) ∧
      ws.map McWorker.cmd = [0, 1].map (gpuCommand ("x -Gpu # y".toList)) ∧
      (∀ (nBatches : Nat) (pick : Nat → Nat), (∀ i, pick i < ws.length) →
        ∀ i, i < nBatches →
          ((List.range ws.length).filter
            (fun w => decide (i ∈ workerBatchIdxs nBatches pick w))).length
            = 1) :=
  C3_one_worker_per_gpu [0, 1] ("x -Gpu # y".toList) (by decide)

/-! ## `_loadInputMovies` and `_generateBatches` -/

/-- One polling round of `_loadInputMovies`: for every movie id of the
freshly loaded set, if it is not yet a key of the `inputMovies`
ordered dictionary it is registered and yielded.  Returns the ids
yielded by this round, in set order. -/
def loadRound (seen : List Nat) : List Nat → List Nat
  | [] => []
  | mid :: ms =>
    if mid ∈ seen then loadRound seen ms
    else mid :: loadRound (seen ++ [mid]) ms

/-- All ids yielded by `_loadInputMovies` across the polling rounds,
starting from the ids already present in the protocol's existing output
(which are registered but never yielded). -/
def loadInputMoviesGo (seen : List Nat) : List (List Nat) → List Nat
  | [] => []
  | r :: rs =>
    let ys := loadRound seen r
    ys ++ loadInputMoviesGo (seen ++ ys) rs

/-- `_loadInputMovies`, with `existing` the object ids of the previous
output movies and `rounds` the id lists seen in the successive polls of
the streamed input set. -/
def loadInputMovies (existing : List Nat) (rounds : List (List Nat)) :
    List Nat :=
  loadInputMoviesGo existing rounds

theorem loadRound_spec (ms : List Nat) :
    ∀ (seen : List Nat),
      (loadRound seen ms).Nodup ∧ ∀ y ∈ loadRound seen ms, y ∉ seen := by
  induction ms with
  | nil => intro seen; simp [loadRound]
  | cons mid rest ih =>
    intro seen
    by_cases hm : mid ∈ seen
    · simpa [loadRound, hm] using ih seen
    · obtain ⟨hnd, hns⟩ := ih (seen ++ [mid])
      have hnotmid : mid ∉ loadRound (seen ++ [mid]) rest := by
        intro hc
        exact hns mid hc (by simp)
      refine ⟨?_, ?_⟩
      · simpa [loadRound, hm, List.nodup_cons] using ⟨hnotmid, hnd⟩
      · intro y hy
        simp only [loadRound, hm, if_false] at hy
        rcases List.mem_cons.mp hy with h | h
        · rw [h]; exact hm
        · intro hc
          exact hns y h (by simp [hc])

theorem loadInputMoviesGo_spec (rounds : List (List Nat)) :
    ∀ (seen : List Nat),
      (loadInputMoviesGo seen rounds).Nodup ∧
      ∀ y ∈ loadInputMoviesGo seen rounds, y ∉ seen := by
  induction rounds with
  | nil => intro seen; simp [loadInputMoviesGo]
  | cons r rs ih =>
    intro seen
    obtain ⟨hrnd, hrns⟩ := loadRound_spec r seen
    obtain ⟨hnd, hns⟩ := ih (seen ++ loadRound seen r)
    constructor
    · simp only [loadInputMoviesGo, List.nodup_append]
      refine ⟨hrnd, hnd, ?_⟩
      intro y hy hc
      exact hns y hc (by simp [hy])
    · intro y hy hyseen
      simp only [loadInputMoviesGo, List.mem_append] at hy
      rcases hy with h | h
      · exact hrns y h hyseen
      · exact hns y h (by simp [hyseen])

/-- A batch produced by `_createBatch`: its 1-based index (`_batchCount`
after the increment) and its movies. -/
structure MovieBatch (β : Type) where
  index : Nat
  movies : List β
deriving DecidableEq

/-- Loop of `_generateBatches`: movies are accumulated into `acc`; a
batch is yielded whenever `len(movies) == batchSize`, and a final
partial batch is yielded for a non-empty remainder.  `count` is the
current `_batchCount`. -/
def generateBatchesGo {β : Type} (batchSize : Nat) (count : Nat)
    (acc : List β) : List β → List (MovieBatch β)
  | [] => if acc.isEmpty then [] else [⟨count + 1, acc⟩]
  | m :: rest =>
    let acc2 := acc ++ [m]
    if acc2.length = batchSize then
      ⟨count + 1, acc2⟩ :: generateBatchesGo batchSize (count + 1) [] rest
    else
      generateBatchesGo batchSize count acc2 rest

/-- `_generateBatches` on the movie sequence yielded by the streaming
loader. -/
def generateBatches {β : Type} (batchSize : Nat) (movies : List β) :
    List (MovieBatch β) :=
  generateBatchesGo batchSize 0 [] movies

theorem generateBatchesGo_spec {β : Type} (batchSize : Nat)
    (hpos : 0 < batchSize) :
    ∀ (movies : List β) (count : Nat) (acc : List β),
      acc.length < batchSize →
      ((generateBatchesGo batchSize count acc movies).map
          MovieBatch.movies).flatten = acc ++ movies ∧
      (∀ i b, i + 1 < (generateBatchesGo batchSize count acc movies).length →
        (generateBatchesGo batchSize count acc movies).get? i = some b →
        b.movies.length = batchSize) ∧
      (∀ b, (generateBatchesGo batchSize count acc movies).getLast? = some b →
        0 < b.movies.length ∧ b.movies.length ≤ batchSize) ∧
      (generateBatchesGo batchSize count acc movies).map MovieBatch.index =
        List.range' (count + 1)
          (generateBatchesGo batchSize count acc movies).length := by
  intro movies
  induction movies with
  | nil =>
    intro count acc hacc
    by_cases hae : acc.isEmpty
    · have : acc = [] := List.isEmpty_iff.mp hae
      subst this
      simp [generateBatchesGo]
    · refine ⟨?_, ?_, ?_, ?_⟩ <;>
        simp only [generateBatchesGo, hae, Bool.false_eq_true, if_false]
      · simp
      · intro i b hi _
        simp at hi
      · intro b hb
        simp only [List.getLast?_singleton, Option.some.injEq] at hb
        subst hb
        have : acc ≠ [] := fun hc => hae (by simp [hc])
        exact ⟨List.length_pos.mpr this, Nat.le_of_lt hacc⟩
      · simp [List.range']
  | cons m rest ih =>
    intro count acc hacc
    by_cases hfull : (acc ++ [m]).length = batchSize
    · obtain ⟨hj, hmid, hlast, hidx⟩ :=
        ih (count + 1) [] (by simpa using hpos)
      refine ⟨?_, ?_, ?_, ?_⟩ <;>
        simp only [generateBatchesGo, hfull, if_true]
      · simp only [List.map_cons, List.flatten_cons, hj]
        simp
      · intro i b hi hget
        cases i with
        | zero =>
          simp only [List.get?_cons_zero, Option.some.injEq] at hget
          subst hget
          exact hfull
        | succ j =>
          simp only [List.length_cons, Nat.add_lt_add_iff_right] at hi
          exact hmid j b (by omega) (by simpa using hget)
      · intro b hb
        cases hrec : generateBatchesGo batchSize (count + 1)
            ([] : List β) rest with
        | nil =>
          rw [hrec] at hb
          simp only [List.getLast?_singleton, Option.some.injEq] at hb
          subst hb
          simp only [hfull]
          exact ⟨hpos, le_refl _⟩
        | cons b2 bs =>
          rw [hrec] at hb
          rw [List.getLast?_cons_cons] at hb
          exact hlast b (by rw [hrec]; exact hb)
      · simp only [List.map_cons, hidx, List.length_cons]
        rw [List.range'_succ]
    · have hlen : (acc ++ [m]).length < batchSize := by
        have : (acc ++ [m]).length = acc.length + 1 := by simp
        omega
      obtain ⟨hj, hmid, hlast, hidx⟩ := ih count (acc ++ [m]) hlen
      refine ⟨?_, ?_, ?_, ?_⟩ <;>
        simp only [generateBatchesGo, hfull, if_false]
      · rw [hj]; simp
      · exact hmid
      · exact hlast
      · exact hidx

/-- C4: with a positive batch size, the generated batches partition the
loaded movie sequence in input order — concatenating the batches gives
back the sequence, every batch but the last has exactly `batchSize`
movies, the last has between 1 and `batchSize`, and the indices are
`1, 2, ...`; and the streaming loader yields each input object id at
most once (no id twice, and none that was already in the existing
output). -/
theorem C4_batching (batchSize : Nat) (hpos : 0 < batchSize) {β : Type}
    (movies : List β) (existing : List Nat) (rounds : List (List Nat)) :
    ((generateBatches batchSize movies).map MovieBatch.movies).flatten
      = movies ∧
    (∀ i b, i + 1 < (generateBatches batchSize movies).length →
      (generateBatches batchSize movies).get? i = some b →
      b.movies.length = batchSize) ∧
    (∀ b, (generateBatches batchSize movies).getLast? = some b →
      0 < b.movies.length ∧ b.movies.length ≤ batchSize) ∧
    (generateBatches batchSize movies).map MovieBatch.index =
      List.range' 1 (generateBatches batchSize movies).length ∧
    (loadInputMovies existing rounds).Nodup ∧
    (∀ y ∈ loadInputMovies existing rounds, y ∉ existing) := by
  obtain ⟨hj, hmid, hlast, hidx⟩ :=
    generateBatchesGo_spec batchSize hpos movies 0 [] (by simpa using hpos)
  obtain ⟨hnd, hns⟩ := loadInputMoviesGo_spec rounds existing
  exact ⟨by simpa [generateBatches] using hj, hmid, hlast, hidx, hnd, hns⟩

/-- Concrete instantiation of C4: batch size 2 over five movies and two
polling rounds with an overlapping id. -/
theorem C4_batching_witness :
    ((generateBatches 2 [10, 11, 12, 13, 14]).map
        MovieBatch.movies).flatten = [10, 11, 12, 13, 14] ∧
    (∀ i b, i + 1 < (generateBatches 2 [10, 11, 12, 13, 14]).length →
      (generateBatches 2 [10, 11, 12, 13, 14]).get? i = some b →
      b.movies.length = 2) ∧
    (∀ b, (generateBatches 2 [10, 11, 12, 13, 14]).getLast? = some b →
      0 < b.movies.length ∧ b.movies.length ≤ 2) ∧
    (generateBatches 2 [10, 11, 12, 13, 14]).map MovieBatch.index =
      List.range' 1 (generateBatches 2 [10, 11, 12, 13, 14]).length ∧
    (loadInputMovies [1] [[1, 2, 3], [2, 3, 4]]).Nodup ∧
    (∀ y ∈ loadInputMovies [1] [[1, 2, 3], [2, 3, 4]], y ∉ [1]) :=
  C4_batching 2 (by decide) [10, 11, 12, 13, 14] [1] [[1, 2, 3], [2, 3, 4]]

/-! ## `_moveBatchOutput` -/

/-- The user parameters `_moveBatchOutput` consults. -/
structure MoveCfg where
  doApplyDoseFilter : Bool
  doSaveUnweightedMic : Bool
  splitEvenOdd : Bool
  patchX : Int
  patchY : Int
deriving DecidableEq

/-- `_doSaveUnweightedMic`: unweighted micrographs are saved only when
the weighted ones are produced (`doApplyDoseFilter`) and the user asked
for them. -/
def doSaveUnweighted (cfg : MoveCfg) : Bool :=
  cfg.doApplyDoseFilter && cfg.doSaveUnweightedMic

/-- `usePatches = self.patchX != 0 or self.patchY != 0`. -/
def usePatches (cfg : MoveCfg) : Bool :=
  decide (cfg.patchX ≠ 0) || decide (cfg.patchY ≠ 0)

/-- Python `'%06d' % n`. -/
def natPad6 (n : Nat) : PyStr :=
  let ds := natToChars n
  List.replicate (6 - ds.length) '0' ++ ds

/-- `_getMovieRoot` of the tasks protocol: `'mic_%06d' % objId`. -/
def movieRoot (objId : Nat) : PyStr := "mic_".toList ++ natPad6 objId

/-- A movie as `_moveBatchOutput` sees it: its Scipion object id (used
by the tasks overrides for the destination names) and the basename root
of its filename (`ProtMotionCorr._getMovieRoot(self, movie)` — the
parent class's root, used for the source names, since the binary writes
its outputs as `output_<fileroot>...` next to basename-named symlinks
in the batch folder). -/
structure TaskMovie where
  objId : Nat
  fileRoot : PyStr
deriving DecidableEq

/-- `logSuffix = '%s-Full.log' % ('-Patch' if usePatches else '')`. -/
def logSuffix (cfg : MoveCfg) : PyStr :=
  (if usePatches cfg then "-Patch".toList else []) ++ "-Full.log".toList

/-- Source name of a movie's shift log in the batch folder:
`ProtMotionCorr._getMovieRoot(self, movie) + logSuffix` — filename
based, not the tasks `mic_%06d` override, so two movies with the same
basename root contend for the same log file. -/
def logSrcName (cfg : MoveCfg) (m : TaskMovie) : PyStr :=
  m.fileRoot ++ logSuffix cfg

/-- `_getMovieLogFile` of the tasks protocol, the log move's
destination: `'mic_%06d' % objId + logSuffix`. -/
def tasksMovieLogFile (cfg : MoveCfg) (objId : Nat) : PyStr :=
  movieRoot objId ++ logSuffix cfg

/-- Root of the binary's outputs for a movie:
`'output_' + ProtMotionCorr._getMovieRoot(self, movie)`. -/
def outRoot (m : TaskMovie) : PyStr := "output_".toList ++ m.fileRoot

/-- Result of one `_moveToExtra` call: whether the move happened, the
move performed, and the batch folder afterwards (`pwutils.moveFile`
removes its source from the folder). -/
structure MoveStep where
  done : Bool
  moves : List (PyStr × PyStr)
  fs : List PyStr
deriving DecidableEq

/-- `_moveToExtra`: when `src` exists in the batch folder it is moved
to `dst` in extra and disappears from the folder; otherwise nothing
happens and `False` is returned. -/
def moveToExtra (fs : List PyStr) (src dst : PyStr) : MoveStep :=
  if src ∈ fs then ⟨true, [(src, dst)], fs.erase src⟩ else ⟨false, [], fs⟩

/-- Run a list of candidate moves left to right, threading the batch
folder through; returns the moves performed and the final folder. -/
def runMoves (fs : List PyStr) :
    List (PyStr × PyStr) → List (PyStr × PyStr) × List PyStr
  | [] => ([], fs)
  | (src, dst) :: rest =>
    let s := moveToExtra fs src dst
    let r := runMoves s.fs rest
    (s.moves ++ r.1, r.2)

/-- The micrograph moves `_moveMovieFiles` attempts for one movie, in
program order, before the log move: dose-weighted when `applyDose`,
unweighted when `not applyDose or saveUnweighted`, even/odd when
`splitEvenOdd`. Sources are filename-based (`output_` + parent root),
destinations objId-based (`mic_%06d`). -/
def micMoves (cfg : MoveCfg) (m : TaskMovie) : List (PyStr × PyStr) :=
  (if cfg.doApplyDoseFilter then
    [(outRoot m ++ "_DW.mrc".toList, movieRoot m.objId ++ "_DW.mrc".toList)]
  else []) ++
  (if !cfg.doApplyDoseFilter || doSaveUnweighted cfg then
    [(outRoot m ++ ".mrc".toList, movieRoot m.objId ++ ".mrc".toList)]
  else []) ++
  (if cfg.splitEvenOdd then
    [(outRoot m ++ "_EVN.mrc".toList, movieRoot m.objId ++ "_EVN.mrc".toList),
     (outRoot m ++ "_ODD.mrc".toList, movieRoot m.objId ++ "_ODD.mrc".toList)]
  else [])

/-- `_moveMovieFiles` for one movie of the batch: attempt the
configured micrograph moves, then the shift-log move, whose success is
the movie's `done` flag. Returns the moves performed, the flag, and
the batch folder afterwards. -/
def moveMovieFiles (cfg : MoveCfg) (fs : List PyStr) (m : TaskMovie) :
    List (PyStr × PyStr) × Bool × List PyStr :=
  let pre := runMoves fs (micMoves cfg m)
  let lg := moveToExtra pre.2 (logSrcName cfg m) (tasksMovieLogFile cfg m.objId)
  (pre.1 ++ lg.moves, lg.done, lg.fs)

/-- Result of `_moveBatchOutput` on one batch. -/
structure MoveOutcome where
  moves : List (PyStr × PyStr)
  newDone : List TaskMovie
  registered : List TaskMovie
deriving DecidableEq

/-- `_moveBatchOutput`: run `_moveMovieFiles` over the batch's movies
in order, threading the batch folder; a movie joins `newDone` when its
log move happened; `newDone` is what `_updateOutputSets` registers in
the output sets. Also returns the final batch folder. -/
def moveBatchOutput (cfg : MoveCfg) (fs : List PyStr) :
    List TaskMovie → MoveOutcome × List PyStr
  | [] => (⟨[], [], []⟩, fs)
  | m :: rest =>
    let r := moveMovieFiles cfg fs m
    let o := moveBatchOutput cfg r.2.2 rest
    (⟨r.1 ++ o.1.moves,
      (if r.2.1 then [m] else []) ++ o.1.newDone,
      (if r.2.1 then [m] else []) ++ o.1.registered⟩, o.2)

theorem getLast_append_right (A B : List Char) (c : Char)
    (h : B.getLast? = some c) : (A ++ B).getLast? = some c := by
  rw [List.getLast?_append]
  rw [h]
  rfl

theorem logSuffix_getLast (cfg : MoveCfg) :
    (logSuffix cfg).getLast? = some 'g' :=
  getLast_append_right _ _ _ (by decide)

theorem logSrcName_getLast (cfg : MoveCfg) (m : TaskMovie) :
    (logSrcName cfg m).getLast? = some 'g' :=
  getLast_append_right _ _ _ (logSuffix_getLast cfg)

theorem micMoves_src_getLast (cfg : MoveCfg) (m : TaskMovie) :
    ∀ mv ∈ micMoves cfg m, mv.1.getLast? = some 'c' := by
  intro mv hmv
  unfold micMoves at hmv
  simp only [List.mem_append] at hmv
  rcases hmv with (h | h) | h
  · split at h
    · rw [List.mem_singleton] at h
      subst h
      exact getLast_append_right _ _ _ (by decide)
    · simp at h
  · split at h
    · rw [List.mem_singleton] at h
      subst h
      exact getLast_append_right _ _ _ (by decide)
    · simp at h
  · split at h
    · rcases List.mem_cons.mp h with h2 | h2
      · subst h2
        exact getLast_append_right _ _ _ (by decide)
      · rw [List.mem_singleton] at h2
        subst h2
        exact getLast_append_right _ _ _ (by decide)
    · simp at h

/-- A shift log name (ending in `g`) is never a micrograph move's
source (ending in `c`): within one movie the micrograph moves cannot
consume the log file. -/
theorem logSrcName_ne_micSrc (cfg cfg2 : MoveCfg) (m m2 : TaskMovie) :
    ∀ mv ∈ micMoves cfg2 m2, logSrcName cfg m ≠ mv.1 := by
  intro mv hmv heq
  have h1 := logSrcName_getLast cfg m
  rw [heq, micMoves_src_getLast cfg2 m2 mv hmv] at h1
  exact absurd h1 (by decide)

theorem moveToExtra_pos (fs : List PyStr) (src dst : PyStr)
    (h : src ∈ fs) :
    moveToExtra fs src dst = ⟨true, [(src, dst)], fs.erase src⟩ := by
  unfold moveToExtra
  rw [if_pos h]

theorem moveToExtra_neg (fs : List PyStr) (src dst : PyStr)
    (h : src ∉ fs) :
    moveToExtra fs src dst = ⟨false, [], fs⟩ := by
  unfold moveToExtra
  rw [if_neg h]

theorem runMoves_cons (fs : List PyStr) (src dst : PyStr)
    (rest : List (PyStr × PyStr)) :
    runMoves fs ((src, dst) :: rest) =
      ((moveToExtra fs src dst).moves ++
        (runMoves (moveToExtra fs src dst).fs rest).1,
       (runMoves (moveToExtra fs src dst).fs rest).2) := rfl

/-- Behaviour of a left-to-right move run: every performed move was a
candidate whose source existed; the folder only shrinks; with a
duplicate-free folder no source is moved twice, the folder stays
duplicate-free, and moved sources are gone; names that are no
candidate's source are untouched. -/
theorem runMoves_spec (cands : List (PyStr × PyStr)) :
    ∀ fs : List PyStr,
    (∀ mv ∈ (runMoves fs cands).1, mv.1 ∈ fs ∧ mv ∈ cands) ∧
    (runMoves fs cands).2 ⊆ fs ∧
    (fs.Nodup → ((runMoves fs cands).1.map Prod.fst).Nodup) ∧
    (fs.Nodup → (runMoves fs cands).2.Nodup) ∧
    (fs.Nodup → ∀ mv ∈ (runMoves fs cands).1,
      mv.1 ∉ (runMoves fs cands).2) ∧
    (∀ x : PyStr, (∀ mv ∈ cands, x ≠ mv.1) →
      (x ∈ (runMoves fs cands).2 ↔ x ∈ fs)) := by
  induction cands with
  | nil =>
    intro fs
    refine ⟨?_, ?_, ?_, ?_, ?_, ?_⟩
    · intro mv hmv
      exact absurd hmv (List.not_mem_nil mv)
    · exact fun x hx => hx
    · intro _
      exact List.nodup_nil
    · exact fun h => h
    · intro _ mv hmv
      exact absurd hmv (List.not_mem_nil mv)
    · intro x _
      exact Iff.rfl
  | cons hd rest ih =>
    intro fs
    obtain ⟨src, dst⟩ := hd
    by_cases h : src ∈ fs
    · rw [runMoves_cons, moveToExtra_pos fs src dst h]
      obtain ⟨ih1, ih2, ih3, ih4, ih5, ih6⟩ := ih (fs.erase src)
      refine ⟨?_, ?_, ?_, ?_, ?_, ?_⟩
      · intro mv hmv
        simp only [List.mem_append, List.mem_singleton] at hmv
        rcases hmv with hmv | hmv
        · subst hmv
          exact ⟨h, List.mem_cons_self _ _⟩
        · obtain ⟨hm1, hm2⟩ := ih1 mv hmv
          exact ⟨List.erase_subset src fs hm1, List.mem_cons_of_mem _ hm2⟩
      · intro x hx
        exact List.erase_subset src fs (ih2 hx)
      · intro hfs
        simp only [List.map_append, List.map_cons, List.map_nil]
        rw [List.nodup_append]
        refine ⟨List.nodup_singleton src, ih3 (hfs.erase src), ?_⟩
        intro a ha hb
        rw [List.mem_singleton] at ha
        subst ha
        rw [List.mem_map] at hb
        obtain ⟨mv, hmv, hmveq⟩ := hb
        have := (ih1 mv hmv).1
        rw [hmveq] at this
        exact hfs.not_mem_erase this
      · intro hfs
        exact ih4 (hfs.erase src)
      · intro hfs mv hmv
        simp only [List.mem_append, List.mem_singleton] at hmv
        rcases hmv with hmv | hmv
        · subst hmv
          intro hin
          exact hfs.not_mem_erase (ih2 hin)
        · exact ih5 (hfs.erase src) mv hmv
      · intro x hx
        have hx0 : x ≠ src := hx (src, dst) (List.mem_cons_self _ _)
        have hx' : ∀ mv ∈ rest, x ≠ mv.1 :=
          fun mv hmv => hx mv (List.mem_cons_of_mem _ hmv)
        rw [ih6 x hx']
        exact List.mem_erase_of_ne hx0
    · rw [runMoves_cons, moveToExtra_neg fs src dst h]
      obtain ⟨ih1, ih2, ih3, ih4, ih5, ih6⟩ := ih fs
      refine ⟨?_, ?_, ?_, ?_, ?_, ?_⟩
      · intro mv hmv
        simp only [List.nil_append] at hmv
        obtain ⟨hm1, hm2⟩ := ih1 mv hmv
        exact ⟨hm1, List.mem_cons_of_mem _ hm2⟩
      · exact ih2
      · intro hfs
        simp only [List.nil_append]
        exact ih3 hfs
      · exact ih4
      · intro hfs mv hmv
        simp only [List.nil_append] at hmv
        exact ih5 hfs mv hmv
      · intro x hx
        exact ih6 x fun mv hmv => hx mv (List.mem_cons_of_mem _ hmv)

/-- `_moveMovieFiles` on one movie: the `done` flag is exactly the
presence of the filename-based shift log in the current folder; when
set, the log move (filename-based source, objId-based destination) is
among the moves; every move's source was present; with a
duplicate-free folder no source is moved twice, the folder stays
duplicate-free and only shrinks, and moved sources are gone. -/
theorem moveMovieFiles_spec (cfg : MoveCfg) (fs : List PyStr)
    (m : TaskMovie) :
    (moveMovieFiles cfg fs m).2.1 = decide (logSrcName cfg m ∈ fs) ∧
    ((moveMovieFiles cfg fs m).2.1 = true →
      (logSrcName cfg m, tasksMovieLogFile cfg m.objId) ∈
        (moveMovieFiles cfg fs m).1) ∧
    (∀ mv ∈ (moveMovieFiles cfg fs m).1, mv.1 ∈ fs) ∧
    (fs.Nodup → ((moveMovieFiles cfg fs m).1.map Prod.fst).Nodup) ∧
    (fs.Nodup → (moveMovieFiles cfg fs m).2.2.Nodup) ∧
    (moveMovieFiles cfg fs m).2.2 ⊆ fs ∧
    (fs.Nodup → ∀ mv ∈ (moveMovieFiles cfg fs m).1,
      mv.1 ∉ (moveMovieFiles cfg fs m).2.2) := by
  obtain ⟨r1, r2, r3, r4, r5, r6⟩ := runMoves_spec (micMoves cfg m) fs
  have huntouched :
      logSrcName cfg m ∈ (runMoves fs (micMoves cfg m)).2 ↔
        logSrcName cfg m ∈ fs :=
    r6 (logSrcName cfg m) (logSrcName_ne_micSrc cfg cfg m m)
  by_cases hl : logSrcName cfg m ∈ (runMoves fs (micMoves cfg m)).2
  · have hmem : logSrcName cfg m ∈ fs := huntouched.mp hl
    show _ ∧ _ ∧ _ ∧ _ ∧ _ ∧ _ ∧ _
    rw [moveMovieFiles]
    rw [moveToExtra_pos _ _ _ hl]
    refine ⟨?_, ?_, ?_, ?_, ?_, ?_, ?_⟩
    · simp [hmem]
    · intro _
      simp
    · intro mv hmv
      simp only [List.mem_append, List.mem_singleton] at hmv
      rcases hmv with hmv | hmv
      · exact (r1 mv hmv).1
      · subst hmv
        exact hmem
    · intro hfs
      simp only [List.map_append, List.map_cons, List.map_nil]
      rw [List.nodup_append]
      refine ⟨r3 hfs, List.nodup_singleton _, ?_⟩
      intro a ha hb
      rw [List.mem_singleton] at hb
      subst hb
      rw [List.mem_map] at ha
      obtain ⟨mv, hmv, hmveq⟩ := ha
      exact absurd hmveq
        (Ne.symm (logSrcName_ne_micSrc cfg cfg m m mv (r1 mv hmv).2))
    · intro hfs
      exact (r4 hfs).erase _
    · intro x hx
      exact r2 (List.erase_subset _ _ hx)
    · intro hfs mv hmv
      simp only [List.mem_append, List.mem_singleton] at hmv
      rcases hmv with hmv | hmv
      · intro hin
        exact r5 hfs mv hmv (List.erase_subset _ _ hin)
      · subst hmv
        exact (r4 hfs).not_mem_erase
  · have hmem : logSrcName cfg m ∉ fs := fun hc => hl (huntouched.mpr hc)
    show _ ∧ _ ∧ _ ∧ _ ∧ _ ∧ _ ∧ _
    rw [moveMovieFiles]
    rw [moveToExtra_neg _ _ _ hl]
    refine ⟨?_, ?_, ?_, ?_, ?_, ?_, ?_⟩
    · simp [hmem]
    · intro hc
      exact absurd hc (by simp)
    · intro mv hmv
      simp only [List.append_nil] at hmv
      exact (r1 mv hmv).1
    · intro hfs
      simp only [List.append_nil]
      exact r3 hfs
    · intro hfs
      exact r4 hfs
    · exact r2
    · intro hfs mv hmv
      simp only [List.append_nil] at hmv
      exact r5 hfs mv hmv

theorem moveBatchOutput_cons (cfg : MoveCfg) (fs : List PyStr)
    (m : TaskMovie) (rest : List TaskMovie) :
    moveBatchOutput cfg fs (m :: rest) =
      (⟨(moveMovieFiles cfg fs m).1 ++
          (moveBatchOutput cfg (moveMovieFiles cfg fs m).2.2 rest).1.moves,
        (if (moveMovieFiles cfg fs m).2.1 then [m] else []) ++
          (moveBatchOutput cfg (moveMovieFiles cfg fs m).2.2 rest).1.newDone,
        (if (moveMovieFiles cfg fs m).2.1 then [m] else []) ++
          (moveBatchOutput cfg (moveMovieFiles cfg fs m).2.2 rest).1.registered⟩,
       (moveBatchOutput cfg (moveMovieFiles cfg fs m).2.2 rest).2) := rfl

/-- Full behaviour of `_moveBatchOutput`, by induction over the batch
with the folder state generalised. -/
theorem moveBatchOutput_spec (cfg : MoveCfg) (movies : List TaskMovie) :
    ∀ fs : List PyStr, fs.Nodup →
      (movies.map TaskMovie.objId).Nodup →
    (moveBatchOutput cfg fs movies).1.registered =
      (moveBatchOutput cfg fs movies).1.newDone ∧
    (moveBatchOutput cfg fs movies).1.newDone.Sublist movies ∧
    (∀ i : Nat, ∀ hi : i < movies.length,
      movies.get ⟨i, hi⟩ ∈ (moveBatchOutput cfg fs movies).1.newDone ↔
        logSrcName cfg (movies.get ⟨i, hi⟩) ∈
          (moveBatchOutput cfg fs (movies.take i)).2) ∧
    (∀ m ∈ (moveBatchOutput cfg fs movies).1.newDone,
      (logSrcName cfg m, tasksMovieLogFile cfg m.objId) ∈
        (moveBatchOutput cfg fs movies).1.moves) ∧
    (∀ mv ∈ (moveBatchOutput cfg fs movies).1.moves, mv.1 ∈ fs) ∧
    ((moveBatchOutput cfg fs movies).1.moves.map Prod.fst).Nodup ∧
    (moveBatchOutput cfg fs movies).2.Nodup ∧
    (moveBatchOutput cfg fs movies).2 ⊆ fs := by
  induction movies with
  | nil =>
    intro fs hfs _
    refine ⟨rfl, List.nil_sublist _, ?_, ?_, ?_, List.nodup_nil, hfs,
      fun x hx => hx⟩
    · intro i hi
      exact absurd hi (Nat.not_lt_zero i)
    · intro m hm
      exact absurd hm (List.not_mem_nil m)
    · intro mv hmv
      exact absurd hmv (List.not_mem_nil mv)
  | cons m rest ih =>
    intro fs hfs hids
    rw [List.map_cons, List.nodup_cons] at hids
    obtain ⟨hid0, hidsr⟩ := hids
    have hm_notin : m ∉ rest := by
      intro hc
      exact hid0 (List.mem_map.mpr ⟨m, hc, rfl⟩)
    obtain ⟨ma, mb, mc, md, me, mf, mg⟩ := moveMovieFiles_spec cfg fs m
    have hfs' : (moveMovieFiles cfg fs m).2.2.Nodup := me hfs
    obtain ⟨ihr, ihsub, ihidx, ihlog, ihsrc, ihnd, ihfsnd, ihfssub⟩ :=
      ih (moveMovieFiles cfg fs m).2.2 hfs' hidsr
    refine ⟨?_, ?_, ?_, ?_, ?_, ?_, ?_, ?_⟩
    · rw [moveBatchOutput_cons]
      simp only []
      rw [ihr]
    · rw [moveBatchOutput_cons]
      simp only []
      by_cases hdone : (moveMovieFiles cfg fs m).2.1
      · rw [if_pos hdone]
        exact ihsub.cons₂ m
      · rw [if_neg hdone]
        simp only [List.nil_append]
        exact ihsub.cons m
    · intro i hi
      match i with
      | 0 =>
        have hget : (m :: rest).get ⟨0, hi⟩ = m := rfl
        rw [hget]
        have htake : (m :: rest).take 0 = [] := rfl
        rw [htake]
        have hstate : (moveBatchOutput cfg fs []).2 = fs := rfl
        rw [hstate]
        rw [moveBatchOutput_cons]
        simp only []
        constructor
        · intro hmem
          rw [List.mem_append] at hmem
          rcases hmem with hmem | hmem
          · by_cases hdone : (moveMovieFiles cfg fs m).2.1
            · rw [ma] at hdone
              exact of_decide_eq_true hdone
            · rw [if_neg hdone] at hmem
              exact absurd hmem (List.not_mem_nil m)
          · exact absurd (ihsub.subset hmem) hm_notin
        · intro hmem
          have hdone : (moveMovieFiles cfg fs m).2.1 = true := by
            rw [ma]
            exact decide_eq_true hmem
          rw [List.mem_append, if_pos hdone]
          exact Or.inl (List.mem_singleton.mpr rfl)
      | Nat.succ j =>
        have hj : j < rest.length := Nat.lt_of_succ_lt_succ hi
        have hget : (m :: rest).get ⟨j + 1, hi⟩ = rest.get ⟨j, hj⟩ := rfl
        rw [hget]
        have htake : (m :: rest).take (j + 1) = m :: rest.take j :=
          List.take_succ_cons
        rw [htake]
        rw [moveBatchOutput_cons cfg fs m (rest.take j)]
        rw [moveBatchOutput_cons cfg fs m rest]
        simp only []
        have hne : rest.get ⟨j, hj⟩ ≠ m := by
          intro hc
          rw [← hc] at hm_notin
          exact hm_notin (List.get_mem rest j hj)
        rw [List.mem_append]
        constructor
        · intro hmem
          rcases hmem with hmem | hmem
          · exfalso
            by_cases hdone : (moveMovieFiles cfg fs m).2.1
            · rw [if_pos hdone, List.mem_singleton] at hmem
              exact hne hmem
            · rw [if_neg hdone] at hmem
              exact List.not_mem_nil _ hmem
          · exact (ihidx j hj).mp hmem
        · intro hmem
          exact Or.inr ((ihidx j hj).mpr hmem)
    · intro x hx
      rw [moveBatchOutput_cons] at hx ⊢
      simp only [] at hx ⊢
      rw [List.mem_append] at hx
      rw [List.mem_append]
      rcases hx with hx | hx
      · by_cases hdone : (moveMovieFiles cfg fs m).2.1
        · rw [if_pos hdone, List.mem_singleton] at hx
          subst hx
          exact Or.inl (mb hdone)
        · rw [if_neg hdone] at hx
          exact absurd hx (List.not_mem_nil x)
      · exact Or.inr (ihlog x hx)
    · intro mv hmv
      rw [moveBatchOutput_cons] at hmv
      simp only [] at hmv
      rw [List.mem_append] at hmv
      rcases hmv with hmv | hmv
      · exact mc mv hmv
      · exact mf (ihsrc mv hmv)
    · rw [moveBatchOutput_cons]
      simp only []
      rw [List.map_append, List.nodup_append]
      refine ⟨md hfs, ihnd, ?_⟩
      intro a ha hb
      rw [List.mem_map] at ha hb
      obtain ⟨mv1, hmv1, he1⟩ := ha
      obtain ⟨mv2, hmv2, he2⟩ := hb
      have h1 : a ∉ (moveMovieFiles cfg fs m).2.2 := by
        rw [← he1]
        exact mg hfs mv1 hmv1
      have h2 : a ∈ (moveMovieFiles cfg fs m).2.2 := by
        rw [← he2]
        exact ihsrc mv2 hmv2
      exact h1 h2
    · rw [moveBatchOutput_cons]
      exact ihfsnd
    · rw [moveBatchOutput_cons]
      intro x hx
      exact mf (ihfssub hx)

/-- C6: over a batch folder without duplicate names and a batch of
movies with distinct object ids, `_moveBatchOutput` appends a movie to
`newDone` — and `newDone` is exactly what `_updateOutputSets`
registers, in batch order — if and only if its shift log (named from
the movie's filename root) was still present in the batch folder when
that movie's turn came (an earlier same-named movie may have consumed
it); a done movie's log was moved to its objId-named destination;
every move performed is of a file that existed in the folder, and no
file is moved twice; a movie whose files are missing is merely
skipped, the remaining movies still processed. -/
theorem C6_move_batch_output (cfg : MoveCfg) (fs : List PyStr)
    (movies : List TaskMovie) (hfs : fs.Nodup)
    (hids : (movies.map TaskMovie.objId).Nodup) :
    (moveBatchOutput cfg fs movies).1.registered =
      (moveBatchOutput cfg fs movies).1.newDone ∧
    (moveBatchOutput cfg fs movies).1.newDone.Sublist movies ∧
    (∀ i : Nat, ∀ hi : i < movies.length,
      movies.get ⟨i, hi⟩ ∈ (moveBatchOutput cfg fs movies).1.newDone ↔
        logSrcName cfg (movies.get ⟨i, hi⟩) ∈
          (moveBatchOutput cfg fs (movies.take i)).2) ∧
    (∀ m ∈ (moveBatchOutput cfg fs movies).1.newDone,
      (logSrcName cfg m, tasksMovieLogFile cfg m.objId) ∈
        (moveBatchOutput cfg fs movies).1.moves) ∧
    (∀ mv ∈ (moveBatchOutput cfg fs movies).1.moves, mv.1 ∈ fs) ∧
    ((moveBatchOutput cfg fs movies).1.moves.map Prod.fst).Nodup := by
  obtain ⟨h1, h2, h3, h4, h5, h6, _, _⟩ :=
    moveBatchOutput_spec cfg movies fs hfs hids
  exact ⟨h1, h2, h3, h4, h5, h6⟩

/-- A concrete batch: dose weighting on, no unweighted copies, no
even/odd split; movie 1 has its weighted micrograph and its log in the
folder, movie 2 has nothing. -/
def moveCfgW : MoveCfg := ⟨true, false, false, 0, 0⟩

def batchFsW : List PyStr :=
  ["output_a_DW.mrc".toList, "a-Full.log".toList]

def batchMoviesW : List TaskMovie :=
  [⟨1, "a".toList⟩, ⟨2, "b".toList⟩]

theorem C6_move_batch_output_witness :
    batchFsW.Nodup ∧ (batchMoviesW.map TaskMovie.objId).Nodup ∧
    ((moveBatchOutput moveCfgW batchFsW batchMoviesW).1.registered =
      (moveBatchOutput moveCfgW batchFsW batchMoviesW).1.newDone ∧
    (moveBatchOutput moveCfgW batchFsW batchMoviesW).1.newDone.Sublist
      batchMoviesW ∧
    (∀ i : Nat, ∀ hi : i < batchMoviesW.length,
      batchMoviesW.get ⟨i, hi⟩ ∈
          (moveBatchOutput moveCfgW batchFsW batchMoviesW).1.newDone ↔
        logSrcName moveCfgW (batchMoviesW.get ⟨i, hi⟩) ∈
          (moveBatchOutput moveCfgW batchFsW (batchMoviesW.take i)).2) ∧
    (∀ m ∈ (moveBatchOutput moveCfgW batchFsW batchMoviesW).1.newDone,
      (logSrcName moveCfgW m, tasksMovieLogFile moveCfgW m.objId) ∈
        (moveBatchOutput moveCfgW batchFsW batchMoviesW).1.moves) ∧
    (∀ mv ∈ (moveBatchOutput moveCfgW batchFsW batchMoviesW).1.moves,
      mv.1 ∈ batchFsW) ∧
    ((moveBatchOutput moveCfgW batchFsW batchMoviesW).1.moves.map
      Prod.fst).Nodup) :=
  ⟨by decide, by decide,
    C6_move_batch_output moveCfgW batchFsW batchMoviesW
      (by decide) (by decide)⟩

/-! ## `_getInputFormat` -/

/-- Python `str.lower()`. -/
def pyLower (s : PyStr) : PyStr := s.map Char.toLower

/-- `os.path.basename`: the part after the last `/`. -/
def pyBasename (s : PyStr) : PyStr :=
  s.foldl (fun acc c => if c = '/' then [] else acc ++ [c]) []

/-- The suffix starting at the last `'.'` of a string, when any. -/
def afterLastDot : PyStr → Option PyStr
  | [] => none
  | c :: rest =>
    match afterLastDot rest with
    | some e => some e
    | none => if c = '.' then some (c :: rest) else none

/-- `pwutils.getExt`, i.e. `os.path.splitext(fn)[1]` of the host
framework (modeled here): the extension starts at the last dot of the
basename that is not part of its leading run of dots. -/
def pyGetExt (fn : PyStr) : PyStr :=
  let b := pyBasename fn
  let lead := (b.takeWhile (fun c => c == '.')).length
  match afterLastDot (b.drop lead) with
  | some e => e
  | none => []

/-- `os.path.abspath` (modeled, without `..` normalisation, which the
extension dispatch never depends on). -/
def pyAbsPath (cwd fn : PyStr) : PyStr :=
  if pyStartsWith "/".toList fn then fn else cwd ++ "/".toList ++ fn

/-- The lower-cased extension `_getInputFormat` dispatches on:
`pwutils.getExt(inputFn).lower()` after the `abspath`/`basename`
normalisation of the input file name. -/
def inputExt (cwd inputFn0 : PyStr) (absPath : Bool) : PyStr :=
  pyLower (pyGetExt (if absPath then pyAbsPath cwd inputFn0
                     else pyBasename inputFn0))

/-- `_getInputFormat` of `protocol_base.py`: build the input argument
string for the recognized movie formats, or raise `ValueError`
(`none`). -/
def getInputFormat (cwd : PyStr) (inputFn0 : PyStr) (absPath : Bool) :
    Option PyStr :=
  let inputFn := if absPath then pyAbsPath cwd inputFn0
                 else pyBasename inputFn0
  let ext := inputExt cwd inputFn0 absPath
  if ext = ".mrc".toList ∨ ext = ".mrcs".toList then
    some (" -InMrc \"".toList ++ inputFn ++ "\" ".toList)
  else if ext = ".tif".toList ∨ ext = ".tiff".toList then
    some (" -InTiff \"".toList ++ inputFn ++ "\" ".toList)
  else if ext = ".eer".toList then
    some (" -InEer \"".toList ++ inputFn ++ "\" ".toList)
  else none

/-- Does the argument string begin (after its leading whitespace) with
the given flag? -/
def argBeginsWith (flag : PyStr) (s : PyStr) : Bool :=
  pyStartsWith flag (pyStripLeft s)

theorem argBegins_mrc_mrc (fn : PyStr) :
    argBeginsWith "-InMrc".toList
      (" -InMrc \"".toList ++ fn ++ "\" ".toList) = true := rfl

theorem argBegins_mrc_tiff (fn : PyStr) :
    argBeginsWith "-InTiff".toList
      (" -InMrc \"".toList ++ fn ++ "\" ".toList) = false := rfl

theorem argBegins_mrc_eer (fn : PyStr) :
    argBeginsWith "-InEer".toList
      (" -InMrc \"".toList ++ fn ++ "\" ".toList) = false := rfl

theorem argBegins_tiff_mrc (fn : PyStr) :
    argBeginsWith "-InMrc".toList
      (" -InTiff \"".toList ++ fn ++ "\" ".toList) = false := rfl

theorem argBegins_tiff_tiff (fn : PyStr) :
    argBeginsWith "-InTiff".toList
      (" -InTiff \"".toList ++ fn ++ "\" ".toList) = true := rfl

theorem argBegins_tiff_eer (fn : PyStr) :
    argBeginsWith "-InEer".toList
      (" -InTiff \"".toList ++ fn ++ "\" ".toList) = false := rfl

theorem argBegins_eer_mrc (fn : PyStr) :
    argBeginsWith "-InMrc".toList
      (" -InEer \"".toList ++ fn ++ "\" ".toList) = false := rfl

theorem argBegins_eer_tiff (fn : PyStr) :
    argBeginsWith "-InTiff".toList
      (" -InEer \"".toList ++ fn ++ "\" ".toList) = false := rfl

theorem argBegins_eer_eer (fn : PyStr) :
    argBeginsWith "-InEer".toList
      (" -InEer \"".toList ++ fn ++ "\" ".toList) = true := rfl

/-- C7: `_getInputFormat` returns a string beginning with `-InMrc` iff
the lower-cased extension is `.mrc` or `.mrcs`, with `-InTiff` iff it is
`.tif` or `.tiff`, with `-InEer` iff it is `.eer`, and fails with
`ValueError` exactly on every other extension. -/
theorem C7_input_format (cwd inputFn0 : PyStr) (absPath : Bool) :
    ((getInputFormat cwd inputFn0 absPath = none) ↔
      ¬ (inputExt cwd inputFn0 absPath ∈
        [".mrc".toList, ".mrcs".toList, ".tif".toList, ".tiff".toList,
         ".eer".toList])) ∧
    (∀ s, getInputFormat cwd inputFn0 absPath = some s →
      ((argBeginsWith "-InMrc".toList s = true) ↔
        (inputExt cwd inputFn0 absPath = ".mrc".toList ∨
         inputExt cwd inputFn0 absPath = ".mrcs".toList)) ∧
      ((argBeginsWith "-InTiff".toList s = true) ↔
        (inputExt cwd inputFn0 absPath = ".tif".toList ∨
         inputExt cwd inputFn0 absPath = ".tiff".toList)) ∧
      ((argBeginsWith "-InEer".toList s = true) ↔
        (inputExt cwd inputFn0 absPath = ".eer".toList))) := by
  simp only [getInputFormat]
  by_cases h1 : inputExt cwd inputFn0 absPath = ".mrc".toList ∨
      inputExt cwd inputFn0 absPath = ".mrcs".toList
  · rw [if_pos h1]
    refine ⟨iff_of_false (by simp)
      (not_not_intro (by rcases h1 with h | h <;> rw [h] <;> decide)), ?_⟩
    intro s hs
    have hs2 : s = " -InMrc \"".toList ++
        (if absPath then pyAbsPath cwd inputFn0
         else pyBasename inputFn0) ++ "\" ".toList := (Option.some.inj hs).symm
    subst hs2
    refine ⟨?_, ?_, ?_⟩
    · rw [argBegins_mrc_mrc]
      exact iff_of_true rfl h1
    · rw [argBegins_mrc_tiff]
      simp only [Bool.false_eq_true, false_iff]
      rcases h1 with h | h <;> rw [h] <;> decide
    · rw [argBegins_mrc_eer]
      simp only [Bool.false_eq_true, false_iff]
      rcases h1 with h | h <;> rw [h] <;> decide
  · rw [if_neg h1]
    by_cases h2 : inputExt cwd inputFn0 absPath = ".tif".toList ∨
        inputExt cwd inputFn0 absPath = ".tiff".toList
    · rw [if_pos h2]
      refine ⟨iff_of_false (by simp)
        (not_not_intro (by rcases h2 with h | h <;> rw [h] <;> decide)), ?_⟩
      intro s hs
      have hs2 : s = " -InTiff \"".toList ++
          (if absPath then pyAbsPath cwd inputFn0
           else pyBasename inputFn0) ++ "\" ".toList := (Option.some.inj hs).symm
      subst hs2
      refine ⟨?_, ?_, ?_⟩
      · rw [argBegins_tiff_mrc]
        simp only [Bool.false_eq_true, false_iff]
        exact h1
      · rw [argBegins_tiff_tiff]
        exact iff_of_true rfl h2
      · rw [argBegins_tiff_eer]
        simp only [Bool.false_eq_true, false_iff]
        rcases h2 with h | h <;> rw [h] <;> decide
    · rw [if_neg h2]
      by_cases h3 : inputExt cwd inputFn0 absPath = ".eer".toList
      · rw [if_pos h3]
        refine ⟨iff_of_false (by simp)
          (not_not_intro (by rw [h3]; decide)), ?_⟩
        intro s hs
        have hs2 : s = " -InEer \"".toList ++
            (if absPath then pyAbsPath cwd inputFn0
             else pyBasename inputFn0) ++ "\" ".toList := (Option.some.inj hs).symm
        subst hs2
        refine ⟨?_, ?_, ?_⟩
        · rw [argBegins_eer_mrc]
          simp only [Bool.false_eq_true, false_iff]
          exact h1
        · rw [argBegins_eer_tiff]
          simp only [Bool.false_eq_true, false_iff]
          exact h2
        · rw [argBegins_eer_eer]
          exact iff_of_true rfl h3
      · rw [if_neg h3]
        refine ⟨?_, ?_⟩
        · refine iff_of_true rfl ?_
          intro hmem
          simp only [List.mem_cons, List.not_mem_nil, or_false] at hmem
          rcases hmem with h | h | h | h | h
          · exact h1 (Or.inl h)
          · exact h1 (Or.inr h)
          · exact h2 (Or.inl h)
          · exact h2 (Or.inr h)
          · exact h3 h
        · intro s hs
          exact absurd hs (by simp)

/-! ## `_validate` of `protocol_base.py` -/

/-- The error messages `_validate` can append, as tagged values (each
constructor stands for one distinct message text, carrying the values
interpolated into it). -/
inductive ValidationError
  | movieMissing
  | eerRange (lastFrame : Int)
  | frameRange (lastFrame : Int)
  | doseMissing
  | gainMismatch (gx gy ix iy : Int)
deriving DecidableEq

/-- The protocol state and filesystem facts `_validate` consults. -/
structure ValidateInput where
  firstMovieExists : Bool
  lastFrame : Int
  extIsEer : Bool
  alignFrame0 : Int
  alignFrameN : Int
  doApplyDoseFilter : Bool
  dosePerFrame : Option Rat
  gainDims : Option (Int × Int)
  movieDims : Int × Int
deriving DecidableEq

/-- Python `sorted([a, b])` on a pair. -/
def sortPair (p : Int × Int) : Int × Int :=
  if p.1 ≤ p.2 then p else (p.2, p.1)

/-- Errors appended by `_validate` before the frame-range elif chain:
the broken-symlink check and the EER-specific frame-range restriction,
in append order. -/
def validatePre (inp : ValidateInput) : List ValidationError :=
  (if inp.firstMovieExists then [] else [.movieMissing]) ++
  (if inp.extIsEer ∧ (inp.alignFrame0 ≠ 1 ∨
      (inp.alignFrameN ≠ 0 ∧ inp.alignFrameN ≠ inp.lastFrame)) then
    [.eerRange inp.lastFrame] else [])

/-- `self.alignFrameN.set(lastFrame)` when it was 0: the value of
`alignFrameN` after `_validate`. -/
def validateAN (inp : ValidateInput) : Int :=
  if inp.alignFrameN = 0 then inp.lastFrame else inp.alignFrameN

/-- The frame-range elif chain of `_validate`, which appends the message
`'Frames range must be within 1 - lastFrame'` from whichever of its
three tests fails first. -/
def validateFrameErr (inp : ValidateInput) : List ValidationError :=
  if ¬ (1 ≤ inp.alignFrame0 ∧ inp.alignFrame0 < inp.lastFrame) then
    [.frameRange inp.lastFrame]
  else if ¬ (validateAN inp ≤ inp.lastFrame) then
    [.frameRange inp.lastFrame]
  else if ¬ (inp.alignFrame0 < validateAN inp) then
    [.frameRange inp.lastFrame]
  else []

/-- The dose check (dose missing or below `0.00001` with dose weighting
on) and the gain-dimension check, in append order. -/
def validatePost (inp : ValidateInput) : List ValidationError :=
  (if inp.doApplyDoseFilter then
    match inp.dosePerFrame with
    | none => [.doseMissing]
    | some d => if d < 1 / 100000 then [.doseMissing] else []
   else []) ++
  (match inp.gainDims with
   | some g =>
     if sortPair g ≠ sortPair inp.movieDims then
       [.gainMismatch g.1 g.2 inp.movieDims.1 inp.movieDims.2]
     else []
   | none => [])

/-- `_validate` of `ProtMotionCorrBase`: the mutated `alignFrameN` and
the error list, which concatenates the three segments in the order the
source appends them. -/
def validateBase (inp : ValidateInput) : Int × List ValidationError :=
  (validateAN inp,
   validatePre inp ++ validateFrameErr inp ++ validatePost inp)

/-- C9: `_validate` sets `alignFrameN` to the movies' last frame exactly
when it was 0, and the frame-range error is in the returned error list
iff, for the updated `alignFrameN`, it is not the case that
`1 <= alignFrame0 < alignFrameN <= lastFrame`. -/
theorem C9_validate_frame_range (inp : ValidateInput) :
    (validateBase inp).1 =
      (if inp.alignFrameN = 0 then inp.lastFrame else inp.alignFrameN) ∧
    (ValidationError.frameRange inp.lastFrame ∈ (validateBase inp).2 ↔
      ¬ (1 ≤ inp.alignFrame0 ∧
         inp.alignFrame0 < (validateBase inp).1 ∧
         (validateBase inp).1 ≤ inp.lastFrame)) := by
  refine ⟨rfl, ?_⟩
  have hpre : ValidationError.frameRange inp.lastFrame ∉ validatePre inp := by
    unfold validatePre
    split_ifs <;> simp
  have hpost : ValidationError.frameRange inp.lastFrame ∉ validatePost inp := by
    unfold validatePost
    rcases inp.dosePerFrame with _ | d <;>
      rcases inp.gainDims with _ | g <;>
        split_ifs <;> simp
  have hmain : (ValidationError.frameRange inp.lastFrame ∈
      validateFrameErr inp) ↔
      ¬ (1 ≤ inp.alignFrame0 ∧ inp.alignFrame0 < validateAN inp ∧
         validateAN inp ≤ inp.lastFrame) := by
    unfold validateFrameErr validateAN
    split_ifs <;> simp <;> omega
  show ValidationError.frameRange inp.lastFrame ∈
      validatePre inp ++ validateFrameErr inp ++ validatePost inp ↔
    ¬ (1 ≤ inp.alignFrame0 ∧ inp.alignFrame0 < validateAN inp ∧
       validateAN inp ≤ inp.lastFrame)
  rw [List.mem_append, List.mem_append]
  constructor
  · rintro ((h | h) | h)
    · exact absurd h hpre
    · exact hmain.mp h
    · exact absurd h hpost
  · intro h
    exact Or.inl (Or.inr (hmain.mpr h))

/-! ## `_getMcArgs` of `protocol_base.py` -/

/-- The keys of the argument dictionary built by `_getMcArgs`; `keyStr`
gives the literal command-line flag each stands for. -/
inductive McKey
  | throw | trunc | patch | maskCent | maskSize | ftBin | tol | pixSize
  | kV | cs | outStack | gpu | sumRange | logDir | eerSampling | fmIntFile
  | initDose | fmDose | group | splitSum | defectFile | defectMap
  | gain | rotGain | flipGain | dark | mag
deriving DecidableEq

/-- The literal flag string of each argument key. -/
def keyStr : McKey → PyStr
  | .throw => "-Throw".toList
  | .trunc => "-Trunc".toList
  | .patch => "-Patch".toList
  | .maskCent => "-MaskCent".toList
  | .maskSize => "-MaskSize".toList
  | .ftBin => "-FtBin".toList
  | .tol => "-Tol".toList
  | .pixSize => "-PixSize".toList
  | .kV => "-kV".toList
  | .cs => "-Cs".toList
  | .outStack => "-OutStack".toList
  | .gpu => "-Gpu".toList
  | .sumRange => "-SumRange".toList
  | .logDir => "-LogDir".toList
  | .eerSampling => "-EerSampling".toList
  | .fmIntFile => "-FmIntFile".toList
  | .initDose => "-InitDose".toList
  | .fmDose => "-FmDose".toList
  | .group => "-Group".toList
  | .splitSum => "-SplitSum".toList
  | .defectFile => "-DefectFile".toList
  | .defectMap => "-DefectMap".toList
  | .gain => "-Gain".toList
  | .rotGain => "-RotGain".toList
  | .flipGain => "-FlipGain".toList
  | .dark => "-Dark".toList
  | .mag => "-Mag".toList

/-- A value of the argument dictionary.  Numbers are kept structurally
(`int`, `rat`); `rat3` keeps the three floats of `-Mag` that Python
formats into one string. -/
inductive McVal
  | int (i : Int)
  | rat (q : Rat)
  | str (s : PyStr)
  | rat3 (a b c : Rat)
deriving DecidableEq

/-- Python dict assignment `d[k] = v`: replace in place, else append
(keys stay unique, insertion order is preserved). -/
def dictSet {κ β : Type} [DecidableEq κ] :
    List (κ × β) → κ → β → List (κ × β)
  | [], k, v => [(k, v)]
  | (k2, v2) :: rest, k, v =>
    if k2 = k then (k2, v) :: rest else (k2, v2) :: dictSet rest k v

/-- Python dict lookup `d[k]`. -/
def dictGet {κ β : Type} [DecidableEq κ] (d : List (κ × β)) (k : κ) :
    Option β :=
  (d.find? (fun p => decide (p.1 = k))).map Prod.snd

theorem dictGet_nil {κ β : Type} [DecidableEq κ] (k : κ) :
    dictGet ([] : List (κ × β)) k = none := rfl

theorem dictGet_cons {κ β : Type} [DecidableEq κ] (k2 : κ) (v : β)
    (rest : List (κ × β)) (k : κ) :
    dictGet ((k2, v) :: rest) k =
      if k2 = k then some v else dictGet rest k := by
  unfold dictGet
  rw [List.find?_cons]
  by_cases h : k2 = k <;> simp [h]

theorem dictGet_dictSet_same {κ β : Type} [DecidableEq κ]
    (d : List (κ × β)) (k : κ) (v : β) :
    dictGet (dictSet d k v) k = some v := by
  induction d with
  | nil => simp [dictSet, dictGet_cons]
  | cons p rest ih =>
    obtain ⟨k2, v2⟩ := p
    by_cases h : k2 = k
    · subst h
      simp [dictSet, dictGet_cons]
    · simp only [dictSet, h, if_false]
      rw [dictGet_cons, if_neg h]
      exact ih

theorem dictGet_dictSet_ne {κ β : Type} [DecidableEq κ]
    (d : List (κ × β)) {k k2 : κ} (v : β) (h : k2 ≠ k) :
    dictGet (dictSet d k v) k2 = dictGet d k2 := by
  induction d with
  | nil =>
    rw [show dictSet ([] : List (κ × β)) k v = [(k, v)] from rfl,
      dictGet_cons, if_neg (fun hc => h hc.symm), dictGet_nil]
  | cons p rest ih =>
    obtain ⟨k3, v3⟩ := p
    by_cases h3 : k3 = k
    · subst h3
      simp only [dictSet, eq_self_iff_true, if_true]
      rw [dictGet_cons, dictGet_cons,
        if_neg (fun hc => h hc.symm), if_neg (fun hc => h hc.symm)]
    · simp only [dictSet, h3, if_false]
      rw [dictGet_cons, dictGet_cons, ih]

/-- The protocol state `_getMcArgs`, `_getFramesRange`,
`_getCorrectedDose` and `_prepareEERFiles` consult. -/
structure McParams where
  isEER : Bool
  cropDimX : Int
  cropDimY : Int
  alignFrame0 : Int
  alignFrameN : Int
  numbOfFrames : Int
  framesRangeFirst : Int
  patchX : Int
  patchY : Int
  cropOffsetX : Int
  cropOffsetY : Int
  binFactor : Rat
  tolV : Rat
  samplingRate : Rat
  voltage : Rat
  doSaveMovie : Bool
  eerSampling : Int
  eerGroup : Int
  doApplyDoseFilter : Bool
  doseInitial : Rat
  dosePerFrame : Rat
  group : Int
  groupLocal : Int
  splitEvenOdd : Bool
  defectFile : Option PyStr
  defectMap : Option PyStr
  defectsEerExists : Bool
  gain : Option PyStr
  gainRot : Int
  gainFlip : Int
  dark : Option PyStr
  patchOverlap : Int
  doMagCor : Bool
  scaleMaj : Rat
  scaleMin : Rat
  angDist : Rat
deriving DecidableEq

/-- `_getFramesRange`: for EER the last aligned frame is
`alignFrameN // eerGroup` (Python floor division). -/
def getFramesRange (p : McParams) : Int × Int :=
  if p.isEER then (p.alignFrame0, Int.fdiv p.alignFrameN p.eerGroup)
  else (p.alignFrame0, p.alignFrameN)

/-- `_getCorrectedDose(acqOrder)`: with an acquisition order (tomo) the
pre-exposure accumulates whole tilts and the dose is per frame; without
one the pre-exposure advances to the first frame of the movies' own
frames range. -/
def correctedDose (p : McParams) (acqOrder : Option Int) : Rat × Rat :=
  match acqOrder with
  | some a =>
    (p.doseInitial + (a - 1) * p.dosePerFrame,
     if p.dosePerFrame ≠ 0 then p.dosePerFrame / (p.numbOfFrames : Rat)
     else 0)
  | none =>
    (p.doseInitial + p.dosePerFrame * ((p.framesRangeFirst : Rat) - 1),
     p.dosePerFrame)

/-- `_prepareEERFiles`: for EER movies the file `FmIntFile.txt` is
written with the number of frames, the `eerGroup` fractionation and the
per-fraction dose — `0.0` when dose weighting is off; for non-EER
movies no file is written. -/
def fmIntFileContent (p : McParams) (acqOrder : Option Int) :
    Option (Int × Int × Rat) :=
  if p.isEER then
    some (p.numbOfFrames, p.eerGroup,
      if p.doApplyDoseFilter then (correctedDose p acqOrder).2 else 0)
  else none

/-- Python `f"{a} {b}"` on two integers. -/
def intPairStr (a b : Int) : PyStr :=
  intToChars a ++ " ".toList ++ intToChars b

/-- `argsDict['-Group'] = f'{group} {groupLocal}'`. -/
def stageGroup (p : McParams) (d : List (McKey × McVal)) :
    List (McKey × McVal) :=
  dictSet d .group (.str (intPairStr p.group p.groupLocal))

/-- `if self.splitEvenOdd: argsDict['-SplitSum'] = 1`. -/
def stageSplit (p : McParams) (d : List (McKey × McVal)) :
    List (McKey × McVal) :=
  if p.splitEvenOdd then dictSet d .splitSum (.int 1) else d

/-- The defect-file elif chain of `_getMcArgs`. -/
def stageDefect (p : McParams) (d : List (McKey × McVal)) :
    List (McKey × McVal) :=
  match p.defectFile with
  | some f => dictSet d .defectFile (.str f)
  | none =>
    match p.defectMap with
    | some f => dictSet d .defectMap (.str f)
    | none =>
      if p.defectsEerExists then
        dictSet d .defectFile (.str "../../extra/defects_eer.txt".toList)
      else d

/-- The gain block: `-Gain` (quoted path), `-RotGain`, `-FlipGain`. -/
def stageGain (p : McParams) (d : List (McKey × McVal)) :
    List (McKey × McVal) :=
  match p.gain with
  | some g =>
    dictSet (dictSet (dictSet d
      .gain (.str ("\"".toList ++ g ++ "\"".toList)))
      .rotGain (.int p.gainRot)) .flipGain (.int p.gainFlip)
  | none => d

/-- `if inputMovies.getDark(): argsDict['-Dark'] = ...`. -/
def stageDark (p : McParams) (d : List (McKey × McVal)) :
    List (McKey × McVal) :=
  match p.dark with
  | some dk => dictSet d .dark (.str dk)
  | none => d

/-- `if patchOverlap: argsDict['-Patch'] += f' {patchOverlap}'`. -/
def stageOverlap (p : McParams) (d : List (McKey × McVal)) :
    List (McKey × McVal) :=
  if p.patchOverlap ≠ 0 then
    match dictGet d .patch with
    | some (McVal.str s) =>
      dictSet d .patch (.str (s ++ " ".toList ++ intToChars p.patchOverlap))
    | _ => d
  else d

/-- `if self.doMagCor: argsDict['-Mag'] = f'{scaleMaj} {scaleMin} {angDist}'`. -/
def stageMag (p : McParams) (d : List (McKey × McVal)) :
    List (McKey × McVal) :=
  if p.doMagCor then
    dictSet d .mag (.rat3 p.scaleMaj p.scaleMin p.angDist)
  else d

/-- `_getMcArgs` of `protocol_base.py`: the base dictionary, the EER
entries, the dose entries, then the trailing updates in source order. -/
def getMcArgs (p : McParams) (acqOrder : Option Int) :
    List (McKey × McVal) :=
  let cropDimX := if p.cropDimX = 0 then 1 else p.cropDimX
  let cropDimY := if p.cropDimY = 0 then 1 else p.cropDimY
  let fr := getFramesRange p
  let px := if p.patchX = 1 then 0 else p.patchX
  let py := if p.patchY = 1 then 0 else p.patchY
  let d0 : List (McKey × McVal) :=
    [(.throw, .int (if p.isEER then 0 else fr.1 - 1)),
     (.trunc, .int (if p.isEER then 0 else p.numbOfFrames - fr.2)),
     (.patch, .str (intPairStr px py)),
     (.maskCent, .str (intPairStr p.cropOffsetX p.cropOffsetY)),
     (.maskSize, .str (intPairStr cropDimX cropDimY)),
     (.ftBin, .rat p.binFactor),
     (.tol, .rat p.tolV),
     (.pixSize, .rat p.samplingRate),
     (.kV, .rat p.voltage),
     (.cs, .int 0),
     (.outStack, .int (if p.doSaveMovie then 1 else 0)),
     (.gpu, .str "%(GPU)s".toList),
     (.sumRange, .str "0.0 0.0".toList),
     (.logDir, .str "./".toList)]
  let d1 := if p.isEER then
      dictSet (dictSet d0 .eerSampling (.int (p.eerSampling + 1)))
        .fmIntFile (.str "../../extra/FmIntFile.txt".toList)
    else d0
  let d2 := if p.doApplyDoseFilter then
      let pd := correctedDose p acqOrder
      let d2a := dictSet d1 .initDose
        (.rat (if pd.1 > 1 / 1000 then pd.1 else 0))
      if p.isEER then d2a else dictSet d2a .fmDose (.rat pd.2)
    else d1
  stageMag p (stageOverlap p (stageDark p (stageGain p
    (stageDefect p (stageSplit p (stageGroup p d2))))))

theorem stageGroup_preserves (p : McParams) (d : List (McKey × McVal))
    (k : McKey) (h : k ≠ .group) :
    dictGet (stageGroup p d) k = dictGet d k := by
  unfold stageGroup
  exact dictGet_dictSet_ne d _ h

theorem stageSplit_preserves (p : McParams) (d : List (McKey × McVal))
    (k : McKey) (h : k ≠ .splitSum) :
    dictGet (stageSplit p d) k = dictGet d k := by
  unfold stageSplit
  split_ifs
  · exact dictGet_dictSet_ne d _ h
  · rfl

theorem stageDefect_preserves (p : McParams) (d : List (McKey × McVal))
    (k : McKey) (h1 : k ≠ .defectFile) (h2 : k ≠ .defectMap) :
    dictGet (stageDefect p d) k = dictGet d k := by
  unfold stageDefect
  rcases p.defectFile with _ | f
  · rcases p.defectMap with _ | f2
    · split_ifs
      · exact dictGet_dictSet_ne d _ h1
      · rfl
    · exact dictGet_dictSet_ne d _ h2
  · exact dictGet_dictSet_ne d _ h1

theorem stageGain_preserves (p : McParams) (d : List (McKey × McVal))
    (k : McKey) (h1 : k ≠ .gain) (h2 : k ≠ .rotGain) (h3 : k ≠ .flipGain) :
    dictGet (stageGain p d) k = dictGet d k := by
  unfold stageGain
  rcases p.gain with _ | g
  · rfl
  · rw [dictGet_dictSet_ne _ _ h3, dictGet_dictSet_ne _ _ h2,
      dictGet_dictSet_ne _ _ h1]

theorem stageDark_preserves (p : McParams) (d : List (McKey × McVal))
    (k : McKey) (h : k ≠ .dark) :
    dictGet (stageDark p d) k = dictGet d k := by
  unfold stageDark
  rcases p.dark with _ | dk
  · rfl
  · exact dictGet_dictSet_ne d _ h

theorem stageOverlap_preserves (p : McParams) (d : List (McKey × McVal))
    (k : McKey) (h : k ≠ .patch) :
    dictGet (stageOverlap p d) k = dictGet d k := by
  unfold stageOverlap
  split_ifs
  · rcases hv : dictGet d .patch with _ | v
    · rfl
    · cases v with
      | int i => rfl
      | rat q => rfl
      | str s => exact dictGet_dictSet_ne d _ h
      | rat3 a b c => rfl
  · rfl

theorem stageMag_preserves (p : McParams) (d : List (McKey × McVal))
    (k : McKey) (h : k ≠ .mag) :
    dictGet (stageMag p d) k = dictGet d k := by
  unfold stageMag
  split_ifs
  · exact dictGet_dictSet_ne d _ h
  · rfl

/-- C5: for EER input `_getMcArgs` sets `-EerSampling` to
`eerSampling + 1` and `-FmIntFile` to the `FmIntFile.txt` written by the
conversion step (whose content is the frame count, the `eerGroup`
fractionation, and the per-fraction dose — `0.0` without dose
weighting), and both `-Throw` and `-Trunc` are 0; for non-EER input
neither EER key appears and, with dose weighting on, the dose goes
through `-FmDose`. -/
theorem C5_eer_args (p : McParams) (acqOrder : Option Int) :
    (p.isEER = true →
      dictGet (getMcArgs p acqOrder) .eerSampling =
        some (.int (p.eerSampling + 1)) ∧
      dictGet (getMcArgs p acqOrder) .fmIntFile =
        some (.str "../../extra/FmIntFile.txt".toList) ∧
      fmIntFileContent p acqOrder =
        some (p.numbOfFrames, p.eerGroup,
          if p.doApplyDoseFilter then (correctedDose p acqOrder).2
          else 0) ∧
      dictGet (getMcArgs p acqOrder) .throw = some (.int 0) ∧
      dictGet (getMcArgs p acqOrder) .trunc = some (.int 0)) ∧
    (p.isEER = false →
      dictGet (getMcArgs p acqOrder) .eerSampling = none ∧
      dictGet (getMcArgs p acqOrder) .fmIntFile = none ∧
      fmIntFileContent p acqOrder = none ∧
      (p.doApplyDoseFilter = true →
        dictGet (getMcArgs p acqOrder) .fmDose =
          some (.rat (correctedDose p acqOrder).2))) := by
  have hch : ∀ (k : McKey), k ≠ .group → k ≠ .splitSum → k ≠ .defectFile →
      k ≠ .defectMap → k ≠ .gain → k ≠ .rotGain → k ≠ .flipGain →
      k ≠ .dark → k ≠ .patch → k ≠ .mag →
      ∀ d, dictGet (stageMag p (stageOverlap p (stageDark p (stageGain p
        (stageDefect p (stageSplit p (stageGroup p d))))))) k =
        dictGet d k := by
    intro k n1 n2 n3 n4 n5 n6 n7 n8 n9 n10 d
    rw [stageMag_preserves p _ k n10, stageOverlap_preserves p _ k n9,
      stageDark_preserves p _ k n8, stageGain_preserves p _ k n5 n6 n7,
      stageDefect_preserves p _ k n3 n4, stageSplit_preserves p _ k n2,
      stageGroup_preserves p _ k n1]
  constructor
  · intro hE
    simp only [getMcArgs, hE, if_true]
    rw [hch .eerSampling (by simp) (by simp) (by simp) (by simp) (by simp)
        (by simp) (by simp) (by simp) (by simp) (by simp),
      hch .fmIntFile (by simp) (by simp) (by simp) (by simp) (by simp)
        (by simp) (by simp) (by simp) (by simp) (by simp),
      hch .throw (by simp) (by simp) (by simp) (by simp) (by simp)
        (by simp) (by simp) (by simp) (by simp) (by simp),
      hch .trunc (by simp) (by simp) (by simp) (by simp) (by simp)
        (by simp) (by simp) (by simp) (by simp) (by simp)]
    by_cases hD : p.doApplyDoseFilter <;>
      simp only [hD, if_true, if_false, Bool.false_eq_true] <;>
        refine ⟨?_, ?_, ?_, ?_, ?_⟩ <;>
          simp [fmIntFileContent, hE, hD, dictGet_dictSet_ne,
            dictGet_dictSet_same, dictGet_cons, dictGet_nil]
  · intro hE
    simp only [getMcArgs, hE, Bool.false_eq_true, if_false]
    rw [hch .eerSampling (by simp) (by simp) (by simp) (by simp) (by simp)
        (by simp) (by simp) (by simp) (by simp) (by simp),
      hch .fmIntFile (by simp) (by simp) (by simp) (by simp) (by simp)
        (by simp) (by simp) (by simp) (by simp) (by simp),
      hch .fmDose (by simp) (by simp) (by simp) (by simp) (by simp)
        (by simp) (by simp) (by simp) (by simp) (by simp)]
    by_cases hD : p.doApplyDoseFilter <;>
      simp [fmIntFileContent, hE, hD, dictGet_dictSet_ne,
        dictGet_dictSet_same, dictGet_cons, dictGet_nil]

/-- A concrete EER parameter set for the C5 witness: the EER keys and
the `FmIntFile.txt` content evaluate as C5 states. -/
def mcParamsEER : McParams where
  isEER := true
  cropDimX := 0
  cropDimY := 0
  alignFrame0 := 1
  alignFrameN := 1200
  numbOfFrames := 1200
  framesRangeFirst := 1
  patchX := 5
  patchY := 5
  cropOffsetX := 0
  cropOffsetY := 0
  binFactor := 1
  tolV := 1 / 5
  samplingRate := 1
  voltage := 300
  doSaveMovie := false
  eerSampling := 0
  eerGroup := 32
  doApplyDoseFilter := true
  doseInitial := 0
  dosePerFrame := 1 / 20
  group := 1
  groupLocal := 4
  splitEvenOdd := false
  defectFile := none
  defectMap := none
  defectsEerExists := false
  gain := none
  gainRot := 0
  gainFlip := 0
  dark := none
  patchOverlap := 0
  doMagCor := false
  scaleMaj := 1
  scaleMin := 1
  angDist := 0

/-- Concrete run of C5 on `mcParamsEER`: EER sampling `0` is passed as
`-EerSampling 1`, `FmIntFile.txt` holds `1200 32 0.05`, and both
`-Throw` and `-Trunc` are 0. -/
theorem C5_eer_args_witness :
    mcParamsEER.isEER = true ∧
    dictGet (getMcArgs mcParamsEER none) .eerSampling =
      some (.int (mcParamsEER.eerSampling + 1)) ∧
    dictGet (getMcArgs mcParamsEER none) .fmIntFile =
      some (.str "../../extra/FmIntFile.txt".toList) ∧
    fmIntFileContent mcParamsEER none =
      some (mcParamsEER.numbOfFrames, mcParamsEER.eerGroup,
        if mcParamsEER.doApplyDoseFilter then
          (correctedDose mcParamsEER none).2 else 0) ∧
    dictGet (getMcArgs mcParamsEER none) .throw = some (.int 0) ∧
    dictGet (getMcArgs mcParamsEER none) .trunc = some (.int 0) :=
  have h := (C5_eer_args mcParamsEER none).1 rfl
  ⟨rfl, h.1, h.2.1, h.2.2.1, h.2.2.2.1, h.2.2.2.2⟩

/-! ## `calcFrameMotion` of `protocol_motioncorr.py` -/

/-- The protocol state `calcFrameMotion` consults: the frame range, the
EER grouping, the corrected dose values and the sampling rate. -/
structure MotionParams where
  alignFrame0 : Int
  alignFrameN : Int
  isEER : Bool
  eerGroup : Int
  preExp : Rat
  dose : Rat
  pix : Rat
deriving DecidableEq

/-- `_getFrameRange` of `ProtMotionCorr` (same formula as the base
protocol): for EER the last frame is `alignFrameN // eerGroup`. -/
def mcFrameRange (p : MotionParams) : Int × Int :=
  if p.isEER then (p.alignFrame0, Int.fdiv p.alignFrameN p.eerGroup)
  else (p.alignFrame0, p.alignFrameN)

/-- `dose *= eerGroup` for EER (hardware frames are grouped). -/
def effectiveDose (p : MotionParams) : Rat :=
  if p.isEER then p.dose * (p.eerGroup : Rat) else p.dose

/-- `cutoff = (4 - preExp) // dose`: the last frame counted as early
(at most 4 e/A^2 accumulated). -/
def doseCutoff (p : MotionParams) : Int :=
  Int.floor ((4 - p.preExp) / effectiveDose p)

/-- `shifts[frame - 1]`: the Python indexing `calcFrameMotion` uses. -/
def getShift (l : List Rat) (frame : Int) : Option Rat :=
  l.get? (frame - 1).toNat

/-- The loop of `calcFrameMotion` over `frame in range(2, nframes + 1)`:
look up the shifts of the current frame (an out-of-range access is the
`IndexError` the source catches, making the whole call return `None`),
add the displacement from the previous point to `total` and to exactly
one of `early`/`late` according to the cutoff, and carry the current
shifts as the next `xOld`/`yOld`. -/
def frameMotionGo (shiftsX shiftsY : List Rat) (sqrtFn : Rat → Rat)
    (cutoff : Int) : Nat → Int → Rat → Rat → Rat → Rat → Rat →
    Option (Rat × Rat × Rat)
  | 0, _, _, _, total, early, late => some (total, early, late)
  | fuel + 1, frame, xOld, yOld, total, early, late =>
    match getShift shiftsX frame, getShift shiftsY frame with
    | some x, some y =>
      let d := sqrtFn ((x - xOld) * (x - xOld) + (y - yOld) * (y - yOld))
      frameMotionGo shiftsX shiftsY sqrtFn cutoff fuel (frame + 1) x y
        (total + d)
        (if frame ≤ cutoff then early + d else early)
        (if frame ≤ cutoff then late else late + d)
    | _, _ => none

/-- `calcFrameMotion`: run the loop from frame 2 with starting point
`(0, 0)` and scale all three sums by the sampling rate.  `sqrtFn` embeds
`math.sqrt`.  A zero dose is Python's `ZeroDivisionError` (no triple is
returned), an out-of-range shift access is the caught `IndexError`. -/
def calcFrameMotion (p : MotionParams) (sqrtFn : Rat → Rat)
    (shiftsX shiftsY : List Rat) : Option (Rat × Rat × Rat) :=
  let fr := mcFrameRange p
  let nframes := fr.2 - fr.1 + 1
  if effectiveDose p = 0 then none
  else
    match frameMotionGo shiftsX shiftsY sqrtFn (doseCutoff p)
        ((nframes - 1).toNat) 2 0 0 0 0 0 with
    | some (t, e, l) => some (p.pix * t, p.pix * e, p.pix * l)
    | none => none

/-- The per-frame displacements the loop computes, labelled with their
frame number: `d = sqrt((x - xOld)^2 + (y - yOld)^2)` where `(x, y)` are
the shifts of the frame and `(xOld, yOld)` those of the previous
iteration (`(0, 0)` for frame 2). -/
def frameDisps (shiftsX shiftsY : List Rat) (sqrtFn : Rat → Rat) :
    Nat → Int → Rat → Rat → Option (List (Int × Rat))
  | 0, _, _, _ => some []
  | fuel + 1, frame, xOld, yOld =>
    match getShift shiftsX frame, getShift shiftsY frame with
    | some x, some y =>
      let d := sqrtFn ((x - xOld) * (x - xOld) + (y - yOld) * (y - yOld))
      (frameDisps shiftsX shiftsY sqrtFn fuel (frame + 1) x y).map
        (fun rest => (frame, d) :: rest)
    | _, _ => none

theorem sum_split_filter (cutoff : Int) (ds : List (Int × Rat)) :
    ((ds.filter (fun q => decide (q.1 ≤ cutoff))).map Prod.snd).sum +
    ((ds.filter (fun q => !decide (q.1 ≤ cutoff))).map Prod.snd).sum =
    (ds.map Prod.snd).sum := by
  induction ds with
  | nil => simp
  | cons q rest ih =>
    by_cases h : q.1 ≤ cutoff <;>
      simp [List.filter_cons, h] <;>
      linarith [ih]

theorem frameMotionGo_spec (shiftsX shiftsY : List Rat)
    (sqrtFn : Rat → Rat) (cutoff : Int) :
    ∀ (fuel : Nat) (frame : Int) (xOld yOld total early late t e l : Rat),
      frameMotionGo shiftsX shiftsY sqrtFn cutoff fuel frame xOld yOld
        total early late = some (t, e, l) →
      ∃ ds, frameDisps shiftsX shiftsY sqrtFn fuel frame xOld yOld =
          some ds ∧
        t = total + (ds.map Prod.snd).sum ∧
        e = early +
          ((ds.filter (fun q => decide (q.1 ≤ cutoff))).map Prod.snd).sum ∧
        l = late +
          ((ds.filter (fun q => !decide (q.1 ≤ cutoff))).map
            Prod.snd).sum := by
  intro fuel
  induction fuel with
  | zero =>
    intro frame xOld yOld total early late t e l h
    simp only [frameMotionGo, Option.some.injEq, Prod.mk.injEq] at h
    obtain ⟨ht, he, hl⟩ := h
    exact ⟨[], rfl, by simp [← ht], by simp [← he], by simp [← hl]⟩
  | succ n ih =>
    intro frame xOld yOld total early late t e l h
    simp only [frameMotionGo] at h
    cases hx : getShift shiftsX frame with
    | none => simp [hx] at h
    | some x =>
      cases hy : getShift shiftsY frame with
      | none => simp [hx, hy] at h
      | some y =>
        simp only [hx, hy] at h
        obtain ⟨ds, hds, ht, he, hl⟩ := ih (frame + 1) x y _ _ _ t e l h
        refine ⟨(frame,
          sqrtFn ((x - xOld) * (x - xOld) + (y - yOld) * (y - yOld))) :: ds,
          ?_, ?_, ?_, ?_⟩
        · simp only [frameDisps, hx, hy, hds, Option.map_some']
        · rw [ht]
          simp only [List.map_cons, List.sum_cons]
          ring
        · by_cases hc : frame ≤ cutoff <;>
            simp only [hc, if_true, if_false] at he <;>
            simp [List.filter_cons, hc] <;>
            linarith [he]
        · by_cases hc : frame ≤ cutoff <;>
            simp only [hc, if_true, if_false] at hl <;>
            simp [List.filter_cons, hc] <;>
            linarith [hl]

/-- C10: whenever `calcFrameMotion` returns a triple `(total, early,
late)`, `total = early + late` exactly; the inter-frame displacements of
frames `2..nframes` each land in `early` (frame at or below the dose
cutoff `(4 - preExp) // dose`) or in `late` (frame above it), never
both, and all three components carry the same sampling-rate factor. -/
theorem C10_frame_motion (p : MotionParams) (sqrtFn : Rat → Rat)
    (shiftsX shiftsY : List Rat) (t e l : Rat)
    (h : calcFrameMotion p sqrtFn shiftsX shiftsY = some (t, e, l)) :
    t = e + l ∧
    ∃ ds, frameDisps shiftsX shiftsY sqrtFn
        (((mcFrameRange p).2 - (mcFrameRange p).1 + 1 - 1).toNat)
        2 0 0 = some ds ∧
      t = p.pix * (ds.map Prod.snd).sum ∧
      e = p.pix *
        ((ds.filter (fun q => decide (q.1 ≤ doseCutoff p))).map
          Prod.snd).sum ∧
      l = p.pix *
        ((ds.filter (fun q => !decide (q.1 ≤ doseCutoff p))).map
          Prod.snd).sum := by
  simp only [calcFrameMotion] at h
  split_ifs at h
  cases hgo : frameMotionGo shiftsX shiftsY sqrtFn (doseCutoff p)
      (((mcFrameRange p).2 - (mcFrameRange p).1 + 1 - 1).toNat)
      2 0 0 0 0 0 with
  | none => rw [hgo] at h; simp at h
  | some tel =>
    obtain ⟨t0, e0, l0⟩ := tel
    rw [hgo] at h
    simp only [Option.some.injEq, Prod.mk.injEq] at h
    obtain ⟨ht, he, hl⟩ := h
    obtain ⟨ds, hds, ht0, he0, hl0⟩ :=
      frameMotionGo_spec shiftsX shiftsY sqrtFn (doseCutoff p) _ 2
        0 0 0 0 0 t0 e0 l0 hgo
    simp only [zero_add] at ht0 he0 hl0
    constructor
    · rw [← ht, ← he, ← hl, ht0, he0, hl0, ← mul_add,
        sum_split_filter (doseCutoff p) ds]
    · exact ⟨ds, hds, by rw [← ht, ht0], by rw [← he, he0],
        by rw [← hl, hl0]⟩

/-- A concrete parameter set and shift lists for the C10 witness. -/
def motionParamsW : MotionParams where
  alignFrame0 := 1
  alignFrameN := 3
  isEER := false
  eerGroup := 32
  preExp := 0
  dose := 1 / 2
  pix := 2

/-- Concrete run of C10: shifts `[0, 3, 4]`, `[0, 4, 7]` with
`sqrtFn = id` give `(70, 70, 0)` and indeed `70 = 70 + 0`. -/
theorem C10_frame_motion_witness :
    calcFrameMotion motionParamsW id [0, 3, 4] [0, 4, 7] =
      some (70, 70, 0) ∧ (70 : Rat) = 70 + 0 := by
  have h : calcFrameMotion motionParamsW id [0, 3, 4] [0, 4, 7] =
      some (70, 70, 0) := by
    norm_num [calcFrameMotion, motionParamsW, mcFrameRange, effectiveDose,
      doseCutoff, frameMotionGo, getShift,
      show ((2 : Int)).toNat = 2 from rfl, show ((1 : Int)).toNat = 1 from rfl]
  exact ⟨h, (C10_frame_motion motionParamsW id [0, 3, 4] [0, 4, 7]
    70 70 0 h).1⟩

/-! ## OpticsGroups and the STAR round trip (`convert.py`; the
`emtable` STAR serialisation is modelled from the STAR text format, as
exemplified by the template embedded in `OpticsGroups.create`). -/

/-- Join row tokens with single spaces (the writer pads columns, but the
parser splits on whitespace runs, so single spaces are equivalent). -/
def joinSpace : List PyStr → PyStr
  | [] => []
  | [t] => t
  | t :: rest => t ++ " ".toList ++ joinSpace rest

/-- A `loop_` column header line: `_<name> #<i>`. -/
def headerLine (name : PyStr) (i : Nat) : PyStr :=
  "_".toList ++ name ++ " #".toList ++ natToChars i

/-- The header lines of the columns, numbered from `i`. -/
def headerLines (cols : List PyStr) (i : Nat) : List PyStr :=
  match cols with
  | [] => []
  | c :: rest => headerLine c i :: headerLines rest (i + 1)

/-- An `emtable` table: column names and rows of value tokens. -/
structure StarTable where
  cols : List PyStr
  rows : List (List PyStr)
deriving DecidableEq

/-- `Table.writeStar(tableName)` as its list of output lines: the
`data_<name>` block header, a blank line, `loop_`, the column headers,
the data rows, and a final blank line. -/
def writeStarLines (tableName : PyStr) (t : StarTable) : List PyStr :=
  ("data_".toList ++ tableName) :: [] :: "loop_".toList ::
    (headerLines t.cols 1 ++ t.rows.map joinSpace ++ [[]])

/-- Skip lines until the `data_<name>` line; fail when absent. -/
def dropToData (target : PyStr) : List PyStr → Option (List PyStr)
  | [] => none
  | l :: rest =>
    if pyStrip l = target then some rest else dropToData target rest

/-- Skip blank lines. -/
def dropBlankLines : List PyStr → List PyStr
  | [] => []
  | l :: rest =>
    if (pyStrip l).isEmpty then dropBlankLines rest else l :: rest

/-- Read the contiguous `_column #N` header lines: the column name is
the first whitespace token without its leading underscore.  Returns the
column names and the remaining lines. -/
def readHeaderLines : List PyStr → List PyStr × List PyStr
  | [] => ([], [])
  | l :: rest =>
    if pyStartsWith "_".toList (pyStrip l) then
      let name := ((pySplitWs (pyStrip l)).headD []).drop 1
      let r := readHeaderLines rest
      (name :: r.1, r.2)
    else ([], l :: rest)

/-- Read whitespace-split data rows until a blank line or the end. -/
def readDataRows : List PyStr → List (List PyStr)
  | [] => []
  | l :: rest =>
    if (pyStrip l).isEmpty then []
    else pySplitWs (pyStrip l) :: readDataRows rest

/-- `Table.readStar(tableName)`: find the data block, skip blanks,
expect `loop_`, read the headers, then the rows. -/
def readStarLines (tableName : PyStr) (lines : List PyStr) :
    Option StarTable :=
  match dropToData ("data_".toList ++ tableName) lines with
  | none => none
  | some rest =>
    match dropBlankLines rest with
    | [] => none
    | l :: rest2 =>
      if pyStrip l = "loop_".toList then
        let hr := readHeaderLines rest2
        some ⟨hr.1, readDataRows hr.2⟩
      else none

/-- A value serialises to a single STAR token: non-empty and free of
whitespace. -/
def tokenOK (tok : PyStr) : Bool :=
  !tok.isEmpty && tok.all (fun c => !c.isWhitespace)

/-- A row survives the STAR round trip: non-empty, every value a proper
token, and its first character not an underscore (which would read back
as a column header). -/
def rowOK (r : List PyStr) : Bool :=
  match r with
  | (c :: _) :: _ => r.all tokenOK && c != '_'
  | _ => false

theorem pyStripLeft_of_head (l : PyStr)
    (h : ∀ c, l.head? = some c → c.isWhitespace = false) :
    pyStripLeft l = l := by
  cases l with
  | nil => rfl
  | cons c rest =>
    rw [pyStripLeft, if_neg]
    intro hc
    exact absurd (h c rfl) (by simp [hc])

theorem pyStrip_eq_self (l : PyStr)
    (h1 : ∀ c, l.head? = some c → c.isWhitespace = false)
    (h2 : ∀ c, l.getLast? = some c → c.isWhitespace = false) :
    pyStrip l = l := by
  unfold pyStrip
  rw [pyStripLeft_of_head l h1, pyStripLeft_of_head l.reverse
    (by intro c hc; exact h2 c (by rwa [List.head?_reverse] at hc)),
    List.reverse_reverse]

theorem pySplitWsAux_token :
    ∀ (tok : PyStr), (∀ c ∈ tok, c.isWhitespace = false) →
    ∀ (cur rest : PyStr),
      pySplitWsAux cur (tok ++ rest) = pySplitWsAux (tok.reverse ++ cur) rest := by
  intro tok
  induction tok with
  | nil => intro _ cur rest; simp
  | cons c tok2 ih =>
    intro h cur rest
    have hc : c.isWhitespace = false := h c (List.mem_cons_self c tok2)
    rw [List.cons_append, pySplitWsAux, if_neg (by simp [hc]),
      ih (fun x hx => h x (List.mem_cons_of_mem c hx)) (c :: cur) rest]
    simp

theorem pySplitWsAux_space (cur rest : PyStr) :
    pySplitWsAux cur (' ' :: rest) =
      if cur.isEmpty then pySplitWsAux [] rest
      else cur.reverse :: pySplitWsAux [] rest := rfl

theorem pySplitWsAux_nil (cur : PyStr) :
    pySplitWsAux cur [] = if cur.isEmpty then [] else [cur.reverse] := rfl

theorem tokenOK_ne_nil {t : PyStr} (h : tokenOK t = true) : t ≠ [] := by
  intro hc
  subst hc
  simp [tokenOK] at h

theorem tokenOK_no_ws {t : PyStr} (h : tokenOK t = true) :
    ∀ c ∈ t, c.isWhitespace = false := by
  intro c hc
  simp only [tokenOK, Bool.and_eq_true, List.all_eq_true] at h
  simpa using h.2 c hc

theorem pySplitWs_joinSpace :
    ∀ (toks : List PyStr), (∀ t ∈ toks, tokenOK t = true) →
      pySplitWs (joinSpace toks) = toks := by
  intro toks
  induction toks with
  | nil => intro _; rfl
  | cons t rest ih =>
    intro h
    have ht := h t (List.mem_cons_self t rest)
    have htne : t ≠ [] := tokenOK_ne_nil ht
    have htws := tokenOK_no_ws ht
    cases rest with
    | nil =>
      show pySplitWsAux [] (joinSpace [t]) = [t]
      have h1 : joinSpace [t] = t ++ [] := by
        rw [show joinSpace [t] = t from rfl, List.append_nil]
      rw [h1, pySplitWsAux_token t htws [] [], pySplitWsAux_nil]
      rw [if_neg (by simp [htne])]
      simp
    | cons t2 rest2 =>
      have hJ : joinSpace (t :: t2 :: rest2) =
          t ++ (' ' :: joinSpace (t2 :: rest2)) := by
        show (t ++ " ".toList) ++ joinSpace (t2 :: rest2) = _
        rw [List.append_assoc]
        rfl
      show pySplitWsAux [] (joinSpace (t :: t2 :: rest2)) = _
      rw [hJ, pySplitWsAux_token t htws [] _, pySplitWsAux_space]
      rw [if_neg (by simp [htne])]
      have := ih (fun x hx => h x (List.mem_cons_of_mem t hx))
      rw [show pySplitWs (joinSpace (t2 :: rest2)) =
          pySplitWsAux [] (joinSpace (t2 :: rest2)) from rfl] at this
      rw [this]
      simp

theorem digitChar_not_ws (d : Nat) :
    (Nat.digitChar d).isWhitespace = false := by
  unfold Nat.digitChar
  simp only [apply_ite Char.isWhitespace,
    show '0'.isWhitespace = false from rfl,
    show '1'.isWhitespace = false from rfl,
    show '2'.isWhitespace = false from rfl,
    show '3'.isWhitespace = false from rfl,
    show '4'.isWhitespace = false from rfl,
    show '5'.isWhitespace = false from rfl,
    show '6'.isWhitespace = false from rfl,
    show '7'.isWhitespace = false from rfl,
    show '8'.isWhitespace = false from rfl,
    show '9'.isWhitespace = false from rfl,
    show 'a'.isWhitespace = false from rfl,
    show 'b'.isWhitespace = false from rfl,
    show 'c'.isWhitespace = false from rfl,
    show 'd'.isWhitespace = false from rfl,
    show 'e'.isWhitespace = false from rfl,
    show 'f'.isWhitespace = false from rfl,
    show '*'.isWhitespace = false from rfl,
    ite_self]

theorem toDigitsCore_shift :
    ∀ (fuel n : Nat) (acc : List Char),
      Nat.toDigitsCore 10 fuel n acc = Nat.toDigitsCore 10 fuel n [] ++ acc := by
  intro fuel
  induction fuel with
  | zero => intro n acc; rfl
  | succ f ih =>
    intro n acc
    simp only [Nat.toDigitsCore]
    split_ifs
    · rfl
    · rw [ih (n / 10) [Nat.digitChar (n % 10)],
        ih (n / 10) (Nat.digitChar (n % 10) :: acc)]
      simp

theorem toDigitsCore_not_ws :
    ∀ (fuel n : Nat) (acc : List Char),
      (∀ c ∈ acc, c.isWhitespace = false) →
      ∀ c ∈ Nat.toDigitsCore 10 fuel n acc, c.isWhitespace = false := by
  intro fuel
  induction fuel with
  | zero => intro n acc hacc c hc; exact hacc c hc
  | succ f ih =>
    intro n acc hacc c hc
    simp only [Nat.toDigitsCore] at hc
    split_ifs at hc
    · rcases List.mem_cons.mp hc with h | h
      · rw [h]; exact digitChar_not_ws _
      · exact hacc c h
    · refine ih (n / 10) _ ?_ c hc
      intro x hx
      rcases List.mem_cons.mp hx with h | h
      · rw [h]; exact digitChar_not_ws _
      · exact hacc x h

theorem natToChars_not_ws (n : Nat) :
    ∀ c ∈ natToChars n, c.isWhitespace = false := by
  intro c hc
  exact toDigitsCore_not_ws (n + 1) n [] (by simp) c hc

theorem natToChars_ne_nil (n : Nat) : natToChars n ≠ [] := by
  unfold natToChars Nat.toDigits
  simp only [Nat.toDigitsCore]
  split_ifs
  · simp
  · rw [toDigitsCore_shift]
    simp

theorem mem_of_getLast2 {α : Type} :
    ∀ (l : List α) (a : α), l.getLast? = some a → a ∈ l := by
  intro l
  induction l with
  | nil => intro a h; simp at h
  | cons x xs ih =>
    intro a h
    cases xs with
    | nil =>
      simp only [List.getLast?_singleton, Option.some.injEq] at h
      simp [h]
    | cons y ys =>
      rw [List.getLast?_cons_cons] at h
      exact List.mem_cons_of_mem x (ih a h)

theorem headerLine_eq (c : PyStr) (i : Nat) :
    headerLine c i = ('_' :: c) ++ (' ' :: '#' :: natToChars i) := by
  show (("_".toList ++ c) ++ " #".toList) ++ natToChars i = _
  rw [List.append_assoc, List.append_assoc]
  rfl

theorem pyStrip_headerLine (c : PyStr) (i : Nat) :
    pyStrip (headerLine c i) = headerLine c i := by
  refine pyStrip_eq_self _ ?_ ?_
  · intro ch hch
    rw [headerLine_eq] at hch
    simp only [List.cons_append, List.head?_cons, Option.some.injEq] at hch
    rw [← hch]
    rfl
  · intro ch hch
    rw [headerLine_eq, List.getLast?_append] at hch
    have hne := natToChars_ne_nil i
    have : (' ' :: '#' :: natToChars i).getLast? = (natToChars i).getLast? := by
      rw [show (' ' :: '#' :: natToChars i) = [' ', '#'] ++ natToChars i
          from rfl, List.getLast?_append]
      cases hlast : (natToChars i).getLast? with
      | none =>
        exact absurd (List.getLast?_eq_none_iff.mp hlast) hne
      | some x => rfl
    rw [this] at hch
    cases hlast : (natToChars i).getLast? with
    | none => exact absurd (List.getLast?_eq_none_iff.mp hlast) hne
    | some x =>
      rw [hlast] at hch
      simp only [Option.or_some, Option.some.injEq] at hch
      rw [← hch]
      exact natToChars_not_ws i x (mem_of_getLast2 _ x hlast)

theorem headerLine_startsWith (c : PyStr) (i : Nat) :
    pyStartsWith "_".toList (headerLine c i) = true := by
  rw [headerLine_eq]
  rfl

theorem headerLine_name (c : PyStr) (i : Nat) (hc : tokenOK c = true) :
    ((pySplitWs (headerLine c i)).headD []).drop 1 = c := by
  rw [headerLine_eq]
  show ((pySplitWsAux [] (('_' :: c) ++ (' ' :: '#' :: natToChars i))).headD
    []).drop 1 = c
  rw [pySplitWsAux_token ('_' :: c)
      (by
        intro x hx
        rcases List.mem_cons.mp hx with h | h
        · rw [h]; rfl
        · exact tokenOK_no_ws hc x h) [] _,
    List.append_nil, pySplitWsAux_space,
    if_neg (by simp)]
  simp

theorem readHeaderLines_spec :
    ∀ (cols : List PyStr) (i : Nat) (rest : List PyStr),
      (∀ c ∈ cols, tokenOK c = true) →
      (∀ l, rest.head? = some l →
        pyStartsWith "_".toList (pyStrip l) = false) →
      readHeaderLines (headerLines cols i ++ rest) = (cols, rest) := by
  intro cols
  induction cols with
  | nil =>
    intro i rest _ hstop
    cases rest with
    | nil => rfl
    | cons l r2 =>
      show readHeaderLines (l :: r2) = ([], l :: r2)
      have h2 : pyStartsWith ['_'] (pyStrip l) = false := hstop l rfl
      rw [readHeaderLines]
      simp [h2]
  | cons c cols2 ih =>
    intro i rest hcols hstop
    have hc := hcols c (List.mem_cons_self c cols2)
    show readHeaderLines (headerLine c i ::
      (headerLines cols2 (i + 1) ++ rest)) = _
    rw [readHeaderLines]
    simp only [pyStrip_headerLine, headerLine_startsWith, if_true,
      headerLine_name c i hc,
      ih (i + 1) rest (fun x hx => hcols x (List.mem_cons_of_mem c hx)) hstop]

theorem rowOK_shape {r : List PyStr} (h : rowOK r = true) :
    ∃ ch tok2 rest, r = (ch :: tok2) :: rest ∧
      (∀ t ∈ r, tokenOK t = true) ∧ (ch = '_' → False) := by
  match r, h with
  | (ch :: tok2) :: rest, h =>
    simp only [rowOK, Bool.and_eq_true, List.all_eq_true, bne_iff_ne,
      ne_eq] at h
    exact ⟨ch, tok2, rest, rfl, fun t ht => h.1 t ht, h.2⟩

theorem joinSpace_head (ch : Char) (tok2 : PyStr) (rest : List PyStr) :
    (joinSpace ((ch :: tok2) :: rest)).head? = some ch := by
  cases rest with
  | nil => rfl
  | cons r2 rest2 => rfl

theorem joinSpace_ne_nil (t2 : PyStr) (rest2 : List PyStr) (h : t2 ≠ []) :
    joinSpace (t2 :: rest2) ≠ [] := by
  cases rest2 with
  | nil => exact h
  | cons a b =>
    show (t2 ++ " ".toList) ++ joinSpace (a :: b) ≠ []
    simp [h]

theorem joinSpace_getLast :
    ∀ (toks : List PyStr), (∀ t ∈ toks, tokenOK t = true) →
      ∀ c, (joinSpace toks).getLast? = some c → c.isWhitespace = false := by
  intro toks
  induction toks with
  | nil => intro _ c hc; simp [joinSpace] at hc
  | cons t rest ih =>
    intro h c hc
    have ht := h t (List.mem_cons_self t rest)
    cases rest with
    | nil =>
      rw [show joinSpace [t] = t from rfl] at hc
      exact tokenOK_no_ws ht c (mem_of_getLast2 _ c hc)
    | cons t2 rest2 =>
      have hJ : joinSpace (t :: t2 :: rest2) =
          t ++ (' ' :: joinSpace (t2 :: rest2)) := by
        show (t ++ " ".toList) ++ joinSpace (t2 :: rest2) = _
        rw [List.append_assoc]
        rfl
      rw [hJ, List.getLast?_append] at hc
      have ht2 := h t2 (by simp)
      have hne : joinSpace (t2 :: rest2) ≠ [] :=
        joinSpace_ne_nil t2 rest2 (tokenOK_ne_nil ht2)
      have h1 : (' ' :: joinSpace (t2 :: rest2)).getLast? =
          (joinSpace (t2 :: rest2)).getLast? := by
        rw [show (' ' :: joinSpace (t2 :: rest2)) =
            [' '] ++ joinSpace (t2 :: rest2) from rfl, List.getLast?_append]
        cases hg : (joinSpace (t2 :: rest2)).getLast? with
        | none => exact absurd (List.getLast?_eq_none_iff.mp hg) hne
        | some x => rfl
      rw [h1] at hc
      cases hg : (joinSpace (t2 :: rest2)).getLast? with
      | none => exact absurd (List.getLast?_eq_none_iff.mp hg) hne
      | some x =>
        rw [hg] at hc
        simp only [Option.or_some, Option.some.injEq] at hc
        rw [← hc]
        exact ih (fun u hu => h u (List.mem_cons_of_mem t hu)) x hg

theorem pyStrip_rowLine {r : List PyStr} (h : rowOK r = true) :
    pyStrip (joinSpace r) = joinSpace r := by
  obtain ⟨ch, tok2, rest, heq, htoks, _⟩ := rowOK_shape h
  subst heq
  refine pyStrip_eq_self _ ?_ ?_
  · intro c hc
    rw [joinSpace_head] at hc
    have hc2 : ch = c := Option.some.inj hc
    rw [← hc2]
    exact tokenOK_no_ws (htoks (ch :: tok2) (by simp)) ch (by simp)
  · intro c hc
    exact joinSpace_getLast _ htoks c hc

theorem rowLine_not_header {r : List PyStr} (h : rowOK r = true) :
    pyStartsWith "_".toList (pyStrip (joinSpace r)) = false := by
  obtain ⟨ch, tok2, rest, heq, htoks, hch⟩ := rowOK_shape h
  subst heq
  rw [pyStrip_rowLine h]
  cases hj : joinSpace ((ch :: tok2) :: rest) with
  | nil => rfl
  | cons c0 tail =>
    have hh := joinSpace_head ch tok2 rest
    rw [hj] at hh
    have hc0 : c0 = ch := Option.some.inj hh
    subst hc0
    show (('_' == c0) && pyStartsWith [] tail) = false
    rw [show pyStartsWith ([] : PyStr) tail = true from rfl]
    simp only [Bool.and_true, beq_eq_false_iff_ne, ne_eq]
    exact fun hh2 => hch hh2.symm

theorem rowLine_not_blank {r : List PyStr} (h : rowOK r = true) :
    (pyStrip (joinSpace r)).isEmpty = false := by
  obtain ⟨ch, tok2, rest, heq, htoks, _⟩ := rowOK_shape h
  subst heq
  rw [pyStrip_rowLine h]
  have := joinSpace_ne_nil (ch :: tok2) rest (by simp)
  cases hj : joinSpace ((ch :: tok2) :: rest) with
  | nil => exact absurd hj this
  | cons c0 tail => rfl

theorem readDataRows_spec :
    ∀ (rows : List (List PyStr)), (∀ r ∈ rows, rowOK r = true) →
      readDataRows (rows.map joinSpace ++ [[]]) = rows := by
  intro rows
  induction rows with
  | nil => intro _; rfl
  | cons r rest ih =>
    intro h
    have hr := h r (List.mem_cons_self r rest)
    obtain ⟨ch, tok2, rest2, heq, htoks, _⟩ := rowOK_shape hr
    show readDataRows (joinSpace r :: (rest.map joinSpace ++ [[]])) = r :: rest
    rw [readDataRows]
    simp only [rowLine_not_blank hr, Bool.false_eq_true, if_false]
    rw [pyStrip_rowLine hr, pySplitWs_joinSpace r htoks,
      ih (fun x hx => h x (List.mem_cons_of_mem r hx))]

theorem readStar_writeStar (t : StarTable)
    (hcols : ∀ c ∈ t.cols, tokenOK c = true)
    (hrows : ∀ r ∈ t.rows, rowOK r = true) :
    readStarLines "optics".toList (writeStarLines "optics".toList t) =
      some t := by
  have hstop : ∀ l, (t.rows.map joinSpace ++ [[]]).head? = some l →
      pyStartsWith "_".toList (pyStrip l) = false := by
    intro l hl
    cases hrw : t.rows with
    | nil =>
      rw [hrw] at hl
      simp only [List.map_nil, List.nil_append, List.head?_cons,
        Option.some.injEq] at hl
      rw [← hl]
      rfl
    | cons r rest =>
      rw [hrw] at hl
      simp only [List.map_cons, List.cons_append, List.head?_cons,
        Option.some.injEq] at hl
      rw [← hl]
      exact rowLine_not_header (hrows r (by rw [hrw]; simp))
  have hdrop : dropToData ("data_".toList ++ "optics".toList)
      (writeStarLines "optics".toList t) =
      some ([] :: "loop_".toList ::
        (headerLines t.cols 1 ++ t.rows.map joinSpace ++ [[]])) := by
    rw [writeStarLines, dropToData, if_pos (by rfl)]
  have hblank : dropBlankLines ([] :: "loop_".toList ::
      (headerLines t.cols 1 ++ t.rows.map joinSpace ++ [[]])) =
      "loop_".toList ::
        (headerLines t.cols 1 ++ t.rows.map joinSpace ++ [[]]) := by
    rw [dropBlankLines, if_pos (by rfl), dropBlankLines, if_neg (by decide)]
  rw [readStarLines, hdrop]
  simp only [hblank]
  rw [if_pos (by rfl)]
  rw [List.append_assoc, readHeaderLines_spec t.cols 1
    (t.rows.map joinSpace ++ [[]]) hcols hstop]
  simp only [readDataRows_spec t.rows hrows]

/-- Index of a column name in the header (the namedtuple field
position). -/
def colIdx (cols : List PyStr) (name : PyStr) : Option Nat :=
  cols.findIdx? (fun c => c == name)

/-- `og.<column>`: the row's token at the column's position; `none` is
Python's missing-attribute error. -/
def rowField (cols : List PyStr) (row : List PyStr) (name : PyStr) :
    Option PyStr :=
  (colIdx cols name).bind row.get?

/-- `OpticsGroups`: rows mapped both by their `rlnOpticsGroup` number
token and by their `rlnOpticsGroupName`, in `OrderedDict` insertion
order, plus the column names of the construction table. -/
structure OpticsGroups where
  cols : List PyStr
  dict : List (PyStr × List PyStr)
  dictName : List (PyStr × List PyStr)
deriving DecidableEq

/-- `OpticsGroups.__store(og)`. -/
def ogStore (cols : List PyStr) (og : OpticsGroups) (row : List PyStr) :
    Option OpticsGroups :=
  match rowField cols row "rlnOpticsGroup".toList,
      rowField cols row "rlnOpticsGroupName".toList with
  | some num, some name =>
    some ⟨og.cols, dictSet og.dict num row, dictSet og.dictName name row⟩
  | _, _ => none

def ogFromTableGo (cols : List PyStr) :
    OpticsGroups → List (List PyStr) → Option OpticsGroups
  | og, [] => some og
  | og, row :: rest =>
    match ogStore cols og row with
    | some og2 => ogFromTableGo cols og2 rest
    | none => none

/-- `OpticsGroups.__fromTable`: store every row of the table. -/
def ogFromTable (t : StarTable) : Option OpticsGroups :=
  ogFromTableGo t.cols ⟨t.cols, [], []⟩ t.rows

/-- `OpticsGroups.toString` via `_write`: serialise the rows of `_dict`
in order under the stored columns; an empty dictionary is Python's
`StopIteration` out of `first()`. -/
def ogToString (og : OpticsGroups) : Option (List PyStr) :=
  match og.dict with
  | [] => none
  | _ :: _ =>
    some (writeStarLines "optics".toList ⟨og.cols, og.dict.map Prod.snd⟩)

/-- `OpticsGroups.fromString`: parse the STAR text and rebuild the
group dictionaries. -/
def ogFromString (lines : List PyStr) : Option OpticsGroups :=
  (readStarLines "optics".toList lines).bind ogFromTable

/-- A table whose group name contains a space: a legal `OpticsGroups`
value (such values are set through `update`/`updateAll`, e.g. gain file
paths), but not serialisable to a single STAR token. -/
def ogBadTable : StarTable :=
  ⟨["rlnOpticsGroupName".toList, "rlnOpticsGroup".toList],
   [["my group".toList, "1".toList]]⟩

/-- C8 counterexample: building an `OpticsGroups` from `ogBadTable`
succeeds, yet `fromString (toString og)` does not reproduce it — the
whitespace-containing name splits into several tokens on re-parsing. -/
theorem C8_roundtrip_counterexample :
    (ogFromTable ogBadTable).isSome = true ∧
    (ogFromTable ogBadTable).bind
      (fun og => (ogToString og).bind ogFromString) ≠
      ogFromTable ogBadTable := by decide

/-- C8 (amended): `fromString ∘ toString` is the identity on every
`OpticsGroups` built from a table whose values are single STAR tokens
(non-empty, whitespace-free, no row starting with an underscore), whose
rows the dictionaries retain in full (distinct group numbers and
names), and which holds at least one group. -/
theorem C8_roundtrip (t : StarTable) (og : OpticsGroups)
    (hcols : ∀ c ∈ t.cols, tokenOK c = true)
    (hrows : ∀ r ∈ t.rows, rowOK r = true)
    (hog : ogFromTable t = some og)
    (hvals : og.dict.map Prod.snd = t.rows)
    (hc2 : og.cols = t.cols)
    (hne : og.dict ≠ []) :
    (ogToString og).bind ogFromString = some og := by
  cases hd : og.dict with
  | nil => exact absurd hd hne
  | cons p rest =>
    have hts : ogToString og =
        some (writeStarLines "optics".toList
          ⟨og.cols, og.dict.map Prod.snd⟩) := by
      simp only [ogToString, hd]
    rw [hts, Option.some_bind, hvals, hc2,
      show (⟨t.cols, t.rows⟩ : StarTable) = t from rfl,
      ogFromString, readStar_writeStar t hcols hrows, Option.some_bind,
      hog]

/-- A well-formed one-group table for the C8 witness. -/
def ogGoodTable : StarTable :=
  ⟨["rlnOpticsGroupName".toList, "rlnOpticsGroup".toList],
   [["opticsGroup1".toList, "1".toList]]⟩

/-- The `OpticsGroups` built from `ogGoodTable`. -/
def ogGood : OpticsGroups :=
  ⟨ogGoodTable.cols,
   [("1".toList, ["opticsGroup1".toList, "1".toList])],
   [("opticsGroup1".toList, ["opticsGroup1".toList, "1".toList])]⟩

/-- Concrete run of the amended C8 on `ogGoodTable`. -/
theorem C8_roundtrip_witness :
    (ogToString ogGood).bind ogFromString = some ogGood :=
  C8_roundtrip ogGoodTable ogGood (by decide) (by decide) (by decide)
    (by decide) (by decide) (by decide)

end Motioncorr
